import Mathlib

/-!
Verification of the peerless transit-search pipeline (src/peerless/model.py)
against its natural-language specification.

The development shallowly embeds the pieces of `Model` that the claims
concern: threshold selection in `fit_split`, the input normalizer, the
quarter-based partitioner from `__init__`, the candidate aggregation and
greedy deduplication of `find_candidates`, the failure behaviour of
`fit_split`, and HDF5 persistence (`to_hdf` / `from_hdf`).

Numeric values (numpy floats) are modelled as rationals; a possibly-NaN
flux sample is `Option ℚ` with `none` playing the role of NaN.  External
library calls (sklearn classifiers, `np.log`, `h5py`) are modelled as
parameters or as uninterpreted data, while every piece of arithmetic and
control flow written in model.py itself is translated directly.
-/

namespace Peerless

/-! ### Small list helpers (models of np.min / np.max / np.argmin / np.cumsum) -/

/-- Minimum of a list of rationals, 0 for the empty list (the empty case is
never reached where this is used, mirroring numpy which would raise). -/
def listMinQ : List ℚ → ℚ
  | [] => 0
  | [x] => x
  | x :: y :: r => min x (listMinQ (y :: r))

/-- Maximum of a list of rationals, 0 for the empty list. -/
def listMaxQ : List ℚ → ℚ
  | [] => 0
  | [x] => x
  | x :: y :: r => max x (listMaxQ (y :: r))

/-- `np.argmin(np.abs(l - c))`: index of the first element of `l` minimizing
the absolute distance to `c` (0 for the empty list, which numpy rejects). -/
def argminAbs (c : ℚ) : List ℚ → ℕ
  | [] => 0
  | [_] => 0
  | x :: y :: r =>
    if |x - c| ≤ listMinQ ((y :: r).map (fun z => |z - c|)) then 0
    else argminAbs c (y :: r) + 1

/-- `np.cumsum`: entry `k` is the sum of the first `k+1` elements. -/
def cumsum (l : List ℚ) : List ℚ :=
  (List.range l.length).map (fun k => (l.take (k + 1)).sum)

lemma listMinQ_le {l : List ℚ} {x : ℚ} (hx : x ∈ l) : listMinQ l ≤ x := by
  induction l with
  | nil => cases hx
  | cons a t ih =>
    cases t with
    | nil =>
      rcases List.mem_singleton.mp hx with rfl
      exact le_refl _
    | cons b r =>
      rcases List.mem_cons.mp hx with rfl | hx'
      · exact min_le_left _ _
      · exact le_trans (min_le_right _ _) (ih hx')

lemma listMinQ_mem {l : List ℚ} (h : l ≠ []) : listMinQ l ∈ l := by
  induction l with
  | nil => exact absurd rfl h
  | cons a t ih =>
    cases t with
    | nil => simp [listMinQ]
    | cons b r =>
      rcases min_cases a (listMinQ (b :: r)) with ⟨heq, _⟩ | ⟨heq, _⟩
      · simp [listMinQ, heq]
      · have := ih (by simp)
        simp only [listMinQ, heq]
        exact List.mem_cons_of_mem _ this

lemma le_listMaxQ {l : List ℚ} {x : ℚ} (hx : x ∈ l) : x ≤ listMaxQ l := by
  induction l with
  | nil => cases hx
  | cons a t ih =>
    cases t with
    | nil =>
      rcases List.mem_singleton.mp hx with rfl
      exact le_refl _
    | cons b r =>
      rcases List.mem_cons.mp hx with rfl | hx'
      · exact le_max_left _ _
      · exact le_trans (ih hx') (le_max_right _ _)

/-! ### Threshold selection (Model.fit_split, lines 217-228)

`fit_split` builds the precision/recall/threshold curve as
`np.array(zip(prc[0], prc[1], np.append(prc[2], 1.0)))` and then selects

    thr = prc["threshold"][prc["precision"] < prec_req]
    d0["threshold"] = thr[-1] if len(thr) else prc["threshold"][0]
-/

/-- One row of the stored precision/recall/threshold curve. -/
structure PRPoint where
  precision : ℚ
  recallVal : ℚ
  threshold : ℚ
deriving DecidableEq, Repr

/-- `prc = np.array(zip(prc[0], prc[1], np.append(prc[2], 1.0)), ...)`:
zip the sklearn precision and recall arrays with the threshold array
extended by 1.0 (python `zip` truncates to the shortest input). -/
def buildPRC (p r thr : List ℚ) : List PRPoint :=
  (p.zip (r.zip (thr ++ [1]))).map (fun q => ⟨q.1, q.2.1, q.2.2⟩)

/-- The operating threshold computed by `fit_split`:
the last curve threshold whose paired precision is strictly below the
required precision, or the first curve threshold when no precision is
below the requirement.  (`prc["threshold"][0]` on an empty curve would
raise in numpy; sklearn curves are never empty.) -/
def selectThreshold (prc : List PRPoint) (prec_req : ℚ) : ℚ :=
  match ((prc.filter (fun p => p.precision < prec_req)).map PRPoint.threshold).getLast? with
  | some t => t
  | none => (prc.map PRPoint.threshold).headD 0

/-- Modelled from the spec wording (for comparison with `selectThreshold`):
"the highest probability threshold whose corresponding empirical precision
is still ≥ the required precision; if none qualifies, falls back to the
lowest available threshold." -/
def selectThresholdSpec (prc : List PRPoint) (prec_req : ℚ) : ℚ :=
  match (prc.filter (fun p => prec_req ≤ p.precision)).map PRPoint.threshold with
  | [] => listMinQ (prc.map PRPoint.threshold)
  | t :: ts => listMaxQ (t :: ts)

lemma sorted_le_getLast {l : List ℚ} (hs : l.Sorted (· ≤ ·)) {x : ℚ} (hx : x ∈ l)
    (h : l ≠ []) : x ≤ l.getLast h := by
  induction l with
  | nil => cases hx
  | cons a t ih =>
    cases t with
    | nil =>
      rcases List.mem_singleton.mp hx with rfl
      simp [List.getLast]
    | cons b r =>
      have hgl : (a :: b :: r).getLast h = (b :: r).getLast (by simp) := by
        simp [List.getLast]
      rw [hgl]
      rcases List.mem_cons.mp hx with rfl | hx'
      · have hmem : (b :: r).getLast (by simp) ∈ b :: r := List.getLast_mem _
        exact le_trans ((List.sorted_cons.mp hs).1 _ hmem) (le_refl _)
      · exact ih (List.sorted_cons.mp hs).2 hx' (by simp)

lemma sorted_headD_le {l : List ℚ} (hs : l.Sorted (· ≤ ·)) {x : ℚ} (hx : x ∈ l) :
    l.headD 0 ≤ x := by
  induction l with
  | nil => cases hx
  | cons a t _ =>
    rcases List.mem_cons.mp hx with rfl | hx'
    · exact le_refl _
    · exact (List.sorted_cons.mp hs).1 _ hx'

/-- A realistic stored curve (from scores 0.3 and 0.9 on labels 0, 1 with the
1.0 threshold appended by `fit_split`). -/
def prcEx : List PRPoint := [⟨1/2, 1, 3/10⟩, ⟨1, 1, 9/10⟩, ⟨1, 0, 1⟩]

/-- C1 counterexample: on the curve `prcEx` with required precision 1, the
code stores threshold 3/10 (the last threshold with precision < 1), while the
claimed rule (highest threshold with precision ≥ 1) selects 1.  The claim
that the stored threshold is the highest one with qualifying precision is
therefore false on the code. -/
theorem threshold_selection_counterexample :
    selectThreshold prcEx 1 = 3/10 ∧ selectThresholdSpec prcEx 1 = 1 ∧
      ¬ ((3 : ℚ)/10 = 1) := by
  refine ⟨?_, ?_, by norm_num⟩
  · norm_num [selectThreshold, prcEx, List.filter_cons, List.getLast?]
  · norm_num [selectThresholdSpec, prcEx, List.filter_cons, listMaxQ, listMinQ]

/-- C1 (amended): for a curve whose thresholds are nondecreasing, the stored
operating threshold is the highest threshold whose paired precision is
strictly BELOW the required precision — so every curve point with a strictly
larger threshold meets the precision requirement; when every point already
meets the requirement, the lowest available threshold is stored. -/
theorem fit_split_threshold_selection (prc : List PRPoint) (prec_req : ℚ)
    (hs : (prc.map PRPoint.threshold).Sorted (· ≤ ·)) :
    ((∃ p ∈ prc, p.precision < prec_req) →
      ∃ p ∈ prc, p.precision < prec_req ∧ selectThreshold prc prec_req = p.threshold ∧
        (∀ q ∈ prc, q.precision < prec_req → q.threshold ≤ p.threshold) ∧
        (∀ q ∈ prc, p.threshold < q.threshold → prec_req ≤ q.precision))
    ∧ ((∀ p ∈ prc, prec_req ≤ p.precision) →
      selectThreshold prc prec_req = (prc.map PRPoint.threshold).headD 0 ∧
        ∀ q ∈ prc, (prc.map PRPoint.threshold).headD 0 ≤ q.threshold) := by
  constructor
  · rintro ⟨p0, hp0, hplt⟩
    set f := prc.filter (fun p => p.precision < prec_req) with hf
    have hp0f : p0 ∈ f := by
      rw [hf, List.mem_filter]
      exact ⟨hp0, by simpa using hplt⟩
    have hfne : f ≠ [] := List.ne_nil_of_mem hp0f
    have hlast := List.getLast_mem hfne
    set p := f.getLast hfne with hpdef
    have hpf : p ∈ f := hlast
    have hpprc : p ∈ prc ∧ p.precision < prec_req := by
      have := List.mem_filter.mp hpf
      exact ⟨this.1, by simpa using this.2⟩
    have hsub : (f.map PRPoint.threshold).Sublist (prc.map PRPoint.threshold) :=
      (List.filter_sublist prc).map PRPoint.threshold
    have hsf : (f.map PRPoint.threshold).Sorted (· ≤ ·) := hs.sublist hsub
    have hsel : selectThreshold prc prec_req = p.threshold := by
      have hmap : (f.map PRPoint.threshold).getLast? = some p.threshold := by
        rw [List.getLast?_map, List.getLast?_eq_getLast f hfne]
        rfl
      rw [selectThreshold, ← hf, hmap]
    refine ⟨p, hpprc.1, hpprc.2, hsel, ?_, ?_⟩
    · intro q hq hqlt
      have hqf : q ∈ f := by
        rw [hf, List.mem_filter]
        exact ⟨hq, by simpa using hqlt⟩
      have hqth : q.threshold ∈ f.map PRPoint.threshold := List.mem_map_of_mem _ hqf
      have hmapne : f.map PRPoint.threshold ≠ [] := by
        simp [List.map_eq_nil_iff, hfne]
      have := sorted_le_getLast hsf hqth hmapne
      rwa [List.getLast_map] at this
    · intro q hq hlt
      by_contra hnot
      push_neg at hnot
      have hqf : q ∈ f := by
        rw [hf, List.mem_filter]
        exact ⟨hq, by simpa using hnot⟩
      have hqth : q.threshold ∈ f.map PRPoint.threshold := List.mem_map_of_mem _ hqf
      have hmapne : f.map PRPoint.threshold ≠ [] := by
        simp [List.map_eq_nil_iff, hfne]
      have hle := sorted_le_getLast hsf hqth hmapne
      rw [List.getLast_map] at hle
      exact absurd hlt (not_lt.mpr hle)
  · intro hall
    have hfnil : prc.filter (fun p => p.precision < prec_req) = [] := by
      rw [List.filter_eq_nil_iff]
      intro a ha
      simpa using not_lt.mpr (hall a ha)
    have hsel : selectThreshold prc prec_req = (prc.map PRPoint.threshold).headD 0 := by
      rw [selectThreshold, hfnil]
      rfl
    refine ⟨hsel, fun q hq => ?_⟩
    exact sorted_headD_le hs (List.mem_map_of_mem _ hq)

/-- Witness for `fit_split_threshold_selection` at the concrete curve
`prcEx` with required precision 1. -/
theorem fit_split_threshold_selection_witness :
    (prcEx.map PRPoint.threshold).Sorted (· ≤ ·) ∧
      ((∃ p ∈ prcEx, p.precision < 1) →
        ∃ p ∈ prcEx, p.precision < 1 ∧ selectThreshold prcEx 1 = p.threshold ∧
          (∀ q ∈ prcEx, q.precision < 1 → q.threshold ≤ p.threshold) ∧
          (∀ q ∈ prcEx, p.threshold < q.threshold → 1 ≤ q.precision)) := by
  have hs : (prcEx.map PRPoint.threshold).Sorted (· ≤ ·) := by
    norm_num [prcEx, List.sorted_cons]
  exact ⟨hs, (fit_split_threshold_selection prcEx 1 hs).1⟩

/-! ### Python exceptions -/

/-- The python exceptions raised by model.py (ValueError from `fit_split`
and from numpy array construction, RuntimeError from `find_candidates`,
TypeError from subscripting `None`, KeyError from missing dict keys,
ImportError from `__init__`, AssertionError from the wavelet branch of
`normalize_inputs`, and a generic error for exceptions escaping external
library calls such as `clf.fit`). -/
inductive PyErr where
  | valueError
  | runtimeError
  | typeError
  | keyError
  | importError
  | assertionError
  | externalError
deriving DecidableEq, Repr

/-! ### The Normalizer (Model.normalize_inputs, lines 400-412)

    def normalize_inputs(self, X):
        if self.wavelet is None:
            t = np.arange(X.shape[1])
            for i, x in enumerate(X):
                m = np.isfinite(x)
                x[~m] = np.interp(t[~m], t[m], x[m])
                X[i, :] = np.log(x) - np.log(np.median(x))
        else:
            assert False, "WAVELETS ARE BROKEN"
            ...
        return X

A flux sample is `Option ℚ`: `none` models NaN.  `np.log` (an external
library function whose values are irrational) is a parameter
`ln : ℚ → Option ℚ`; `none` models a NaN result. -/

/-- The pairs `(t[m], x[m])` of a window: positions carrying a finite
sample, with that sample. -/
def finitePts (row : List (Option ℚ)) : List (ℕ × ℚ) :=
  (row.enum.filter (fun p => p.2.isSome)).map (fun p => (p.1, p.2.getD 0))

/-- `np.interp(q, xp, fp)` on an integer grid `xp` (assumed strictly
increasing, as `t[m]` always is): clamped piecewise-linear interpolation.
The empty case is numpy's ValueError, handled by the caller. -/
def interpP : List (ℕ × ℚ) → ℕ → ℚ
  | [], _ => 0
  | [(_, f)], _ => f
  | (x0, f0) :: (x1, f1) :: r, q =>
    if q ≤ x0 then f0
    else if q ≤ x1 then f0 + (f1 - f0) * ((q : ℚ) - (x0 : ℚ)) / ((x1 : ℚ) - (x0 : ℚ))
    else interpP ((x1, f1) :: r) q

/-- The window after `x[~m] = np.interp(t[~m], t[m], x[m])`: finite samples
kept, missing samples interpolated from the finite ones. -/
def interpRow (row : List (Option ℚ)) : List ℚ :=
  row.enum.map (fun p =>
    match p.2 with
    | some v => v
    | none => interpP (finitePts row) p.1)

/-- `np.median`: middle element of the sorted list, or the mean of the two
middle elements for even length (0 for the empty list, where numpy would
produce NaN; unreachable in the claims). -/
def npMedian (l : List ℚ) : ℚ :=
  if l.length % 2 = 1 then (l.insertionSort (· ≤ ·)).getD (l.length / 2) 0
  else ((l.insertionSort (· ≤ ·)).getD (l.length / 2 - 1) 0
    + (l.insertionSort (· ≤ ·)).getD (l.length / 2) 0) / 2

/-- NaN-propagating subtraction for `np.log(x) - np.log(np.median(x))`. -/
def optSub : Option ℚ → Option ℚ → Option ℚ
  | some a, some b => some (a - b)
  | _, _ => none

/-- One window of `normalize_inputs`: interpolate the missing samples, then
take the log of every sample minus the log of the (interpolated) window
median. -/
def rowNormalize (ln : ℚ → Option ℚ) (row : List (Option ℚ)) : List (Option ℚ) :=
  (interpRow row).map (fun x => optSub (ln x) (ln (npMedian (interpRow row))))

/-- `Model.normalize_inputs`.  A window with no finite sample makes
`np.interp` raise ValueError; a wavelet request always hits
`assert False, "WAVELETS ARE BROKEN"`. -/
def normalize_inputs (ln : ℚ → Option ℚ) (wavelet : Option ℕ)
    (X : List (List (Option ℚ))) : Except PyErr (List (List (Option ℚ))) :=
  match wavelet with
  | some _ => .error .assertionError
  | none =>
    if X.all (fun row => !(finitePts row).isEmpty) then .ok (X.map (rowNormalize ln))
    else .error .valueError

/-- A window sample is positive (or missing). -/
def optPosB : Option ℚ → Bool
  | none => true
  | some v => decide (0 < v)

/-- Shape model of `np.log`: numpy produces NaN (or `-inf` at 0) for
nonpositive arguments and a finite value for positive ones; only this
definedness pattern matters to the missing-value claims, so the positive
branch carries a placeholder value. -/
def npLogShape (q : ℚ) : Option ℚ :=
  if 0 < q then some 0 else none

lemma finitePts_sorted (row : List (Option ℚ)) :
    (finitePts row).Pairwise (fun p q => p.1 < q.1) := by
  have h0 : (row.enum.map Prod.fst).Pairwise (· < ·) := by
    rw [List.enum_map_fst]
    exact List.pairwise_lt_range _
  have h1 : row.enum.Pairwise (fun p q => p.1 < q.1) := List.pairwise_map.mp h0
  have h2 : (row.enum.filter (fun p => p.2.isSome)).Pairwise (fun p q => p.1 < q.1) :=
    h1.sublist (List.filter_sublist _)
  exact h2.map _ (fun a b hab => hab)

lemma snd_mem_of_mem_enumFrom {α : Type _} (l : List α) :
    ∀ (n : ℕ) (p : ℕ × α), p ∈ l.enumFrom n → p.2 ∈ l := by
  induction l with
  | nil =>
    intro n p h
    simp at h
  | cons a t ih =>
    intro n p h
    rcases List.mem_cons.mp h with rfl | h'
    · simp
    · exact List.mem_cons_of_mem _ (ih (n + 1) p h')

lemma mem_finitePts {row : List (Option ℚ)} {p : ℕ × ℚ} (hp : p ∈ finitePts row) :
    some p.2 ∈ row := by
  rcases List.mem_map.mp hp with ⟨q, hq, rfl⟩
  have hqf := List.mem_filter.mp hq
  have hqe : q ∈ row.enumFrom 0 := hqf.1
  have hsome : q.2.isSome = true := hqf.2
  rcases Option.isSome_iff_exists.mp hsome with ⟨v, hv⟩
  have hmem : q.2 ∈ row := snd_mem_of_mem_enumFrom row 0 q hqe
  simpa [hv] using hmem

lemma interpP_pos (pts : List (ℕ × ℚ)) (q : ℕ) (hne : pts ≠ [])
    (hsort : pts.Pairwise (fun p q => p.1 < q.1))
    (hpos : ∀ p ∈ pts, 0 < p.2) : 0 < interpP pts q := by
  induction pts with
  | nil => exact absurd rfl hne
  | cons a t ih =>
    cases t with
    | nil =>
      obtain ⟨x, f⟩ := a
      simpa [interpP] using hpos (x, f) (by simp)
    | cons b r =>
      obtain ⟨x0, f0⟩ := a
      obtain ⟨x1, f1⟩ := b
      have hf0 : 0 < f0 := hpos (x0, f0) (by simp)
      have hf1 : 0 < f1 := hpos (x1, f1) (by simp)
      have hx01 : x0 < x1 := by
        have := (List.pairwise_cons.mp hsort).1 (x1, f1) (by simp)
        exact this
      rw [interpP]
      by_cases h0 : q ≤ x0
      · simpa [h0] using hf0
      · by_cases h1 : q ≤ x1
        · have hx0q : (x0 : ℚ) < (q : ℚ) := by exact_mod_cast Nat.lt_of_not_le h0
          have hqx1 : (q : ℚ) ≤ (x1 : ℚ) := by exact_mod_cast h1
          have hd : (0 : ℚ) < (x1 : ℚ) - (x0 : ℚ) := by
            have : (x0 : ℚ) < (x1 : ℚ) := by exact_mod_cast hx01
            linarith
          have hval : f0 + (f1 - f0) * ((q : ℚ) - (x0 : ℚ)) / ((x1 : ℚ) - (x0 : ℚ))
              = (f0 * ((x1 : ℚ) - (q : ℚ)) + f1 * ((q : ℚ) - (x0 : ℚ)))
                / ((x1 : ℚ) - (x0 : ℚ)) := by
            field_simp
            ring
          rw [if_neg h0, if_pos h1, hval]
          apply div_pos _ hd
          have hterm1 : 0 ≤ f0 * ((x1 : ℚ) - (q : ℚ)) := by
            apply mul_nonneg (le_of_lt hf0)
            linarith
          have hterm2 : 0 < f1 * ((q : ℚ) - (x0 : ℚ)) := by
            apply mul_pos hf1
            linarith
          linarith
        · have hrec : 0 < interpP ((x1, f1) :: r) q := by
            apply ih (by simp) (List.pairwise_cons.mp hsort).2
            intro p hp
            exact hpos p (List.mem_cons_of_mem _ hp)
          simpa [h0, h1] using hrec

lemma interpRow_pos {row : List (Option ℚ)} (hne : finitePts row ≠ [])
    (hpos : ∀ o ∈ row, optPosB o = true) : ∀ x ∈ interpRow row, 0 < x := by
  intro x hx
  rcases List.mem_map.mp hx with ⟨p, hp, hval⟩
  have hmem : p.2 ∈ row := snd_mem_of_mem_enumFrom row 0 p hp
  cases hc : p.2 with
  | some v =>
    have : optPosB (some v) = true := by
      have := hpos _ hmem
      rwa [hc] at this
    have hv : 0 < v := by simpa [optPosB] using this
    rw [← hval, hc]
    exact hv
  | none =>
    rw [← hval, hc]
    apply interpP_pos _ _ hne (finitePts_sorted row)
    intro q hq
    have := mem_finitePts hq
    have hop := hpos _ this
    simpa [optPosB] using hop

lemma npMedian_pos {l : List ℚ} (hne : l ≠ []) (hpos : ∀ x ∈ l, 0 < x) :
    0 < npMedian l := by
  have hperm : List.Perm (l.insertionSort (· ≤ ·)) l := List.perm_insertionSort _ _
  have hlen : (l.insertionSort (· ≤ ·)).length = l.length := hperm.length_eq
  have hlpos : 0 < l.length := List.length_pos.mpr hne
  have hgd : ∀ i, i < l.length → 0 < (l.insertionSort (· ≤ ·)).getD i 0 := by
    intro i hi
    have hi' : i < (l.insertionSort (· ≤ ·)).length := by rw [hlen]; exact hi
    rw [List.getD_eq_getElem?_getD, List.getElem?_eq_getElem hi']
    exact hpos _ (hperm.mem_iff.mp (List.getElem_mem _))
  rw [npMedian]
  by_cases hodd : l.length % 2 = 1
  · rw [if_pos hodd]
    exact hgd _ (Nat.div_lt_self hlpos (by norm_num))
  · rw [if_neg hodd]
    have h1 : 0 < (l.insertionSort (· ≤ ·)).getD (l.length / 2 - 1) 0 := by
      apply hgd
      have := Nat.div_lt_self hlpos (show 1 < 2 by norm_num)
      omega
    have h2 : 0 < (l.insertionSort (· ≤ ·)).getD (l.length / 2) 0 :=
      hgd _ (Nat.div_lt_self hlpos (by norm_num))
    positivity

/-- C8 counterexample: the single window `[-1.0]` has a finite sample, yet
its normalized output is NaN (`np.log(-1) = nan`), so the claim that any
batch of windows with at least one finite sample each normalizes to an
output with no missing values is false on the code. -/
theorem normalizer_counterexample :
    normalize_inputs npLogShape none [[some (-1 : ℚ)]] = .ok [[none]] := by
  norm_num [normalize_inputs, rowNormalize, interpRow, finitePts, npMedian, npLogShape,
    optSub, List.enum, List.enumFrom, List.filter_cons, List.insertionSort,
    List.orderedInsert, List.getD]

/-- C8 (amended): for a batch of windows each holding at least one finite
sample, all finite samples being positive, `normalize_inputs` succeeds and
is per-window deterministic (the output is the pointwise map of
`rowNormalize`, so identical windows give identical outputs), the output
has no missing values, and each output window is the log of the
missing-value-interpolated flux minus the log of the interpolated window's
median. -/
theorem normalize_inputs_normalizer (ln : ℚ → Option ℚ) (X : List (List (Option ℚ)))
    (hln : ∀ q : ℚ, 0 < q → (ln q).isSome = true)
    (hfin : ∀ row ∈ X, finitePts row ≠ [])
    (hpos : ∀ row ∈ X, ∀ o ∈ row, optPosB o = true) :
    normalize_inputs ln none X = .ok (X.map (rowNormalize ln)) ∧
    (∀ row ∈ X, ∀ o ∈ rowNormalize ln row, o.isSome = true) ∧
    (∀ row ∈ X, rowNormalize ln row =
      (interpRow row).map (fun x => optSub (ln x) (ln (npMedian (interpRow row))))) := by
  have hrow : ∀ row ∈ X, ∀ o ∈ rowNormalize ln row, o.isSome = true := by
    intro row hrowX o ho
    rcases List.mem_map.mp ho with ⟨x, hx, hval⟩
    have hxpos : 0 < x := interpRow_pos (hfin row hrowX) (hpos row hrowX) x hx
    have hrne : interpRow row ≠ [] := List.ne_nil_of_mem hx
    have hmed : 0 < npMedian (interpRow row) :=
      npMedian_pos hrne (interpRow_pos (hfin row hrowX) (hpos row hrowX))
    rcases Option.isSome_iff_exists.mp (hln x hxpos) with ⟨a, ha⟩
    rcases Option.isSome_iff_exists.mp (hln _ hmed) with ⟨b, hb⟩
    rw [← hval, ha, hb]
    rfl
  refine ⟨?_, hrow, fun row _ => rfl⟩
  rw [normalize_inputs]
  have hall : X.all (fun row => !(finitePts row).isEmpty) = true := by
    rw [List.all_eq_true]
    intro row hrowX
    simpa [List.isEmpty_iff] using hfin row hrowX
  rw [if_pos hall]

/-- Witness for `normalize_inputs_normalizer` on the concrete batch
`[[1.0, nan]]` with the `np.log` shape model. -/
theorem normalize_inputs_normalizer_witness :
    normalize_inputs npLogShape none [[some 1, none]]
        = .ok ([[some (1 : ℚ), none]].map (rowNormalize npLogShape)) ∧
      (∀ row ∈ [[some (1 : ℚ), none]], ∀ o ∈ rowNormalize npLogShape row,
        o.isSome = true) := by
  have h := normalize_inputs_normalizer npLogShape [[some 1, none]]
    (fun q hq => by simp [npLogShape, hq])
    (by
      intro row hrow
      rcases List.mem_singleton.mp hrow with rfl
      simp [finitePts, List.enum, List.enumFrom, List.filter_cons])
    (by
      intro row hrow o ho
      rcases List.mem_singleton.mp hrow with rfl
      rcases List.mem_cons.mp ho with rfl | ho'
      · simp [optPosB]
      · rcases List.mem_singleton.mp ho' with rfl
        simp [optPosB])
  exact ⟨h.1, h.2.1⟩

/-! ### Data model

A light-curve segment carries only the attributes the claims consume:
sample count (`len(lc)`), quarter label, and time footprint.  The result
dict of one trained fold (`Model.fit_split`) and the `Model` object state
are translated field by field; dict keys that `fit_split` inserts at
different times are `Option`s, so a dict left behind by a failed run lacks
the later keys.  The sklearn classifier and the formatted training set
(`self.X`, `self.y`, `self.meta`) are uninterpreted blobs: only their
presence/identity matters to the claims (`validation_set`, a structured
numpy array of injection parameters, plays no role in any claim and is
omitted from the validation record). -/

/-- A gap-free light-curve segment. -/
structure LC where
  nsamp : ℕ
  quarter : ℤ
  footprint : ℚ
deriving DecidableEq, Repr

/-- One row of a TestResult `prediction` array. -/
structure PredPoint where
  sect_id : ℕ
  time : ℚ
  predict_prob : ℚ
deriving DecidableEq, Repr

/-- One entry of `d["validation"]`. -/
structure ValidRes where
  split_id : ℕ
  prec_req : ℚ
  threshold : ℚ
  area_under_the_prc : ℚ
  precision_recall_curve : List PRPoint
  validation_pred : List ℚ
deriving DecidableEq, Repr

/-- One entry of `d["test"]`. -/
structure TestRes where
  split_id : ℕ
  prediction : List PredPoint
deriving DecidableEq, Repr

/-- The per-fold result dict `self.models[split]`. -/
structure FoldModel where
  split_id : ℕ
  classifier : Option ℕ
  validation : Option (List ValidRes)
  test : Option (List TestRes)
deriving DecidableEq, Repr

/-- The `Model` object state used by the claims.  `X` is the formatted
synthetic training set (`self.X` together with `self.y` / `self.meta`),
`none` when `format_dataset` has not run. -/
structure PModel where
  lcs : List LC
  half_width : ℕ
  wavelet : Option ℕ
  X : Option ℕ
  models : List (Option FoldModel)
deriving DecidableEq, Repr

/-- `Model.__init__` (lines 28-36): filter the segments long enough for one
training window, record the configuration, start with no trained folds and
no formatted dataset; raise ImportError when a wavelet is requested but
`import pywt` failed (`pywtAvailable` models the import outcome).  The
randomized split computation of `__init__` is modelled separately by
`modelSplits` below; the claims never read the splits through the model
object. -/
def modelInit (pywtAvailable : Bool) (lcs : List LC) (wavelet : Option ℕ)
    (half_width : ℕ) : Except PyErr PModel :=
  if wavelet.isSome && !pywtAvailable then .error .importError
  else .ok ⟨lcs.filter (fun lc => 2 * half_width < lc.nsamp),
    half_width, wavelet, none, [none, none, none]⟩

/-- C10 counterexample: with the wavelet library importable, requesting a
wavelet transform does NOT fail at construction — `Model(lcs, wavelet=w)`
succeeds — contradicting the claim that an unsupported transform request
fails both at construction and at `normalize_inputs`. -/
theorem wavelet_construction_counterexample :
    modelInit true [] (some 0) 100
      = .ok ⟨[], 100, some 0, none, [none, none, none]⟩ := by
  simp [modelInit]

/-- C10 (amended): a wavelet request fails at construction exactly when the
wavelet library is unavailable (ImportError); with the library available,
construction succeeds and the failure is deferred to `normalize_inputs`,
whose wavelet branch always raises (`assert False, "WAVELETS ARE BROKEN"`). -/
theorem wavelet_failure_modes :
    (∀ (lcs : List LC) (w hw : ℕ),
      modelInit false lcs (some w) hw = .error .importError) ∧
    (∀ (lcs : List LC) (w hw : ℕ),
      modelInit true lcs (some w) hw
        = .ok ⟨lcs.filter (fun lc => 2 * hw < lc.nsamp), hw, some w, none,
            [none, none, none]⟩) ∧
    (∀ (ln : ℚ → Option ℚ) (w : ℕ) (X : List (List (Option ℚ))),
      normalize_inputs ln (some w) X = .error .assertionError) := by
  refine ⟨fun lcs w hw => by simp [modelInit], fun lcs w hw => by simp [modelInit],
    fun ln w X => rfl⟩

/-! ### Candidate aggregation (Model.find_candidates, lines 249-320)

    cand_time = defaultdict(list)
    for mod_ind, res in enumerate(self.models):
        for j, (test, valid) in enumerate(zip(res["test"], res["validation"][::-1])):
            pred = test["prediction"]
            thresh = valid["threshold"]
            for i in np.arange(len(pred))[pred["predict_prob"] > thresh]:
                t0 = pred["time"][i]
                k = "{0:.6f}".format(t0)
                cand_time[k].append(pred["predict_prob"][i] / thresh)
                cand_sect[k] = pred["sect_id"][i]
                ...
    candidates = np.array([tuple([float(t0), 0, cand_sect[t0], sum(c)/len(c)] + c + ...)
                           for t0, c in cand_time.iteritems() if len(c) > 1], dtype=dtype)

The nearest-neighbor annotation (`cand_pred`, the KD trees) is consulted by
no claim and is omitted; the KD trees are still the first use of `self.X`,
which `find_candidates` models with its `X` check.  Each accumulated factor
is tagged with its provenance `(modelIdx, pairIdx)` — ghost data that the
emission never reads, used only to state the corroboration claim. -/

/-- One above-threshold detection of the aggregation loop. -/
structure Det where
  modelIdx : ℕ
  pairIdx : ℕ
  key : ℤ
  sect : ℕ
  factor : ℚ
deriving DecidableEq, Repr

/-- The time key `"{0:.6f}".format(t0)`: the time fixed to six decimal
places, represented by its integer numerator over 10^6.  (Python rounds
ties to even; `round` rounds them up — the two agree except on exact
half-microsecond ties, which no claim exercises.) -/
def timeKey (t : ℚ) : ℤ := round (t * 1000000)

/-- `float(t0)` for a key string `t0`: the rounded time it denotes. -/
def keyTime (k : ℤ) : ℚ := (k : ℚ) / 1000000

/-- `zip(res["test"], res["validation"][::-1])`: each test result is paired
with a validation result in reversed complementary-fold order. -/
def foldPairs (tests : List TestRes) (valids : List ValidRes) :
    List (TestRes × ValidRes) :=
  tests.zip valids.reverse

/-- The detections one fold pair contributes: every prediction strictly
above the paired validation threshold, normalized by that threshold. -/
def pairDetections (modelIdx pairIdx : ℕ) (t : TestRes) (v : ValidRes) : List Det :=
  (t.prediction.filter (fun p => v.threshold < p.predict_prob)).map
    (fun p => ⟨modelIdx, pairIdx, timeKey p.time, p.sect_id,
      p.predict_prob / v.threshold⟩)

/-- The accumulation map `cand_time` (and, through the recorded last
detection of each key, `cand_sect`): an association list in first-insertion
order, each key holding its detections in arrival order. -/
def addDet (m : List (ℤ × List Det)) (d : Det) : List (ℤ × List Det) :=
  match m with
  | [] => [(d.key, [d])]
  | (k, l) :: rest =>
    if k = d.key then (k, l ++ [d]) :: rest else (k, l) :: addDet rest d

/-- `cand_time` after the triple loop over the given detections. -/
def buildCandMap (dets : List Det) : List (ℤ × List Det) :=
  dets.foldl addDet []

/-- One row of the `candidates` record array (the six segment-metadata
columns and the nearest-neighbor annotation columns are read by no claim
and are omitted). -/
structure Candidate where
  time : ℚ
  num_points : ℕ
  sect_id : ℕ
  mean_factor : ℚ
  factor_1 : ℚ
  factor_2 : ℚ
deriving DecidableEq, Repr

/-- The candidate row built for key `k` with accumulated detections `c`:
`tuple([float(t0), 0, cand_sect[t0], sum(c) / len(c)] + c + ...)`. -/
def mkCandidate (k : ℤ) (c : List Det) : Candidate :=
  ⟨keyTime k, 0, ((c.getLast?).map Det.sect).getD 0,
    (c.map Det.factor).sum / (c.length : ℚ),
    ((c.get? 0).map Det.factor).getD 0, ((c.get? 1).map Det.factor).getD 0⟩

/-- The `candidates = np.array([...])` comprehension: keep the keys with
more than one accumulated factor.  The dtype declares exactly
`len(self.models) - 1 = 2` factor columns, so a key with more than two
factors makes the tuple longer than the dtype and `np.array` raises
ValueError. -/
def emitCandidates (m : List (ℤ × List Det)) : Except PyErr (List Candidate) :=
  if (m.filter (fun p => 1 < p.2.length)).all (fun p => p.2.length = 2) then
    .ok ((m.filter (fun p => 1 < p.2.length)).map (fun p => mkCandidate p.1 p.2))
  else .error .valueError

/-! ### Greedy deduplication (Model.find_candidates, lines 309-320)

    m = np.ones(len(candidates), dtype=bool)
    final = np.zeros(len(candidates), dtype=bool)
    while m.sum():
        i = np.arange(len(m))[m][np.argmax(candidates[m]["mean_factor"])]
        t0 = candidates[i]["time"]
        m0 = np.abs(candidates["time"] - t0) < window
        candidates[i]["num_points"] = m0.sum()
        m[m0] = False
        final[i] = True
    return candidates[final]

The two boolean masks become two finsets of indices; the while loop becomes
a fuelled loop (`len(candidates)` iterations suffice: with a positive
window each pass resolves at least the selected candidate). -/

/-- The loop state: unresolved mask `m`, selected mask `final`, and the
`num_points` column of the candidate array. -/
structure DedupState (n : ℕ) where
  unres : Finset (Fin n)
  finals : Finset (Fin n)
  numPts : Fin n → ℕ

/-- `np.arange(len(m))[m][np.argmax(candidates[m]["mean_factor"])]`: the
smallest unresolved index carrying the maximal unresolved mean factor
(numpy argmax returns the first maximizer). -/
def dedupSelect {n : ℕ} (f : Fin n → ℚ) (s : Finset (Fin n)) (h : s.Nonempty) : Fin n :=
  (s.filter (fun i => f i = s.sup' h f)).min' (by
    obtain ⟨b, hb, hbe⟩ := Finset.exists_mem_eq_sup' h f
    exact ⟨b, Finset.mem_filter.mpr ⟨hb, hbe.symm⟩⟩)

/-- One iteration of the while loop. -/
def dedupStep {n : ℕ} (t f : Fin n → ℚ) (w : ℚ) (st : DedupState n) : DedupState n :=
  if h : st.unres.Nonempty then
    { unres := st.unres \
        (Finset.univ.filter (fun j => |t j - t (dedupSelect f st.unres h)| < w)),
      finals := insert (dedupSelect f st.unres h) st.finals,
      numPts := fun j =>
        if j = dedupSelect f st.unres h then
          (Finset.univ.filter (fun j' => |t j' - t (dedupSelect f st.unres h)| < w)).card
        else st.numPts j }
  else st

/-- The while loop, fuelled. -/
def dedupLoop {n : ℕ} (t f : Fin n → ℚ) (w : ℚ) : ℕ → DedupState n → DedupState n
  | 0, st => st
  | fuel + 1, st =>
    if st.unres.Nonempty then dedupLoop t f w fuel (dedupStep t f w st) else st

/-- The loop state after running the deduplication on a candidate list. -/
def dedupFinal (w : ℚ) (cands : List Candidate) : DedupState cands.length :=
  dedupLoop (fun i => (cands.get i).time) (fun i => (cands.get i).mean_factor) w
    cands.length ⟨Finset.univ, ∅, fun i => (cands.get i).num_points⟩

/-- `candidates[final]`: the selected rows in array order, carrying their
updated `num_points`. -/
def dedup (w : ℚ) (cands : List Candidate) : List Candidate :=
  ((List.finRange cands.length).filter (fun i => i ∈ (dedupFinal w cands).finals)).map
    (fun i => { cands.get i with num_points := (dedupFinal w cands).numPts i })

/-- `Model.find_candidates`: the not-ready check, the `self.X` access for
the KD trees (a `TypeError` on a model whose dataset was never formatted),
the aggregation over all fold pairs, the corroboration filter, and the
deduplication. -/
def detsOfModel (idx : ℕ) (fm : FoldModel) : Except PyErr (List Det) :=
  match fm.test, fm.validation with
  | some ts, some vl =>
    .ok ((foldPairs ts vl).enum.flatMap (fun p => pairDetections idx p.1 p.2.1 p.2.2))
  | _, _ => .error .keyError

/-- The aggregation loop over the fold models: concatenate every model's
detections in iteration order, stopping at the first missing dict key. -/
def collectDets : List (ℕ × FoldModel) → Except PyErr (List Det)
  | [] => .ok []
  | p :: rest =>
    match detsOfModel p.1 p.2 with
    | .error e => .error e
    | .ok d =>
      match collectDets rest with
      | .error e => .error e
      | .ok ds => .ok (d ++ ds)

/-- `Model.find_candidates` (see `detsOfModel` and `collectDets`). -/
def find_candidates (m : PModel) (window : ℚ) : Except PyErr (List Candidate) :=
  if m.models.any (fun o => o.isNone) then .error .runtimeError
  else
    match m.X with
    | none => .error .typeError
    | some _ =>
      match collectDets (m.models.filterMap id).enum with
      | .error e => .error e
      | .ok dets =>
        match emitCandidates (buildCandMap dets) with
        | .error e => .error e
        | .ok cands => .ok (dedup window cands)

lemma pairDetections_spec (idx j : ℕ) (t : TestRes) (v : ValidRes) :
    ∀ d ∈ pairDetections idx j t v,
      ∃ pr ∈ t.prediction, v.threshold < pr.predict_prob ∧
        d.factor = pr.predict_prob / v.threshold ∧ d.key = timeKey pr.time := by
  intro d hd
  rcases List.mem_map.mp hd with ⟨pr, hpr, rfl⟩
  have h := List.mem_filter.mp hpr
  exact ⟨pr, h.1, by simpa using h.2, rfl, rfl⟩

/-- C6: each fold's two test-prediction sets are zipped against the
reversed validation list, so for complementary folds `c1 ≠ c2` (both lists
are built over `vs = [0,1,2] minus split` in the same order) the test
predictions scored on fold `c` are thresholded — and their confidence
factors divided — by the threshold validated against the other
complementary fold, never fold `c` itself. -/
theorem find_candidates_threshold_pairing (ts : List TestRes) (vl : List ValidRes)
    (c1 c2 : ℕ) (hts : ts.map TestRes.split_id = [c1, c2])
    (hvl : vl.map ValidRes.split_id = [c1, c2]) (hne : c1 ≠ c2) :
    ((foldPairs ts vl).map (fun p => (p.1.split_id, p.2.split_id))
        = [(c1, c2), (c2, c1)]) ∧
    (∀ p ∈ foldPairs ts vl, p.1.split_id ≠ p.2.split_id) ∧
    (∀ p ∈ foldPairs ts vl, ∀ idx j, ∀ d ∈ pairDetections idx j p.1 p.2,
      ∃ pr ∈ p.1.prediction, p.2.threshold < pr.predict_prob ∧
        d.factor = pr.predict_prob / p.2.threshold) := by
  rcases ts with _ | ⟨t1, _ | ⟨t2, _ | ⟨t3, ts'⟩⟩⟩ <;> simp at hts
  rcases vl with _ | ⟨v1, _ | ⟨v2, _ | ⟨v3, vl'⟩⟩⟩ <;> simp at hvl
  obtain ⟨ht1, ht2⟩ := hts
  obtain ⟨hv1, hv2⟩ := hvl
  have hfp : foldPairs [t1, t2] [v1, v2] = [(t1, v2), (t2, v1)] := rfl
  refine ⟨?_, ?_, ?_⟩
  · simp [hfp, ht1, ht2, hv1, hv2]
  · intro p hp
    rw [hfp] at hp
    rcases List.mem_cons.mp hp with rfl | hp'
    · simp only [ht1, hv2]
      exact hne
    · rcases List.mem_singleton.mp hp' with rfl
      simp only [ht2, hv1]
      exact hne.symm
  · intro p _ idx j d hd
    obtain ⟨pr, hpr, hlt, hfac, _⟩ := pairDetections_spec idx j p.1 p.2 d hd
    exact ⟨pr, hpr, hlt, hfac⟩

/-- Witness for `find_candidates_threshold_pairing` on two concrete fold
results for complementary folds 1 and 2. -/
theorem find_candidates_threshold_pairing_witness :
    ([⟨1, []⟩, ⟨2, []⟩].map TestRes.split_id = [1, 2] ∧
      [⟨1, 1, 1, 1, [], []⟩, ⟨2, 1, 1, 1, [], []⟩].map ValidRes.split_id = [1, 2]) ∧
    ((foldPairs [⟨1, []⟩, ⟨2, []⟩] [⟨1, 1, 1, 1, [], []⟩, ⟨2, 1, 1, 1, [], []⟩]).map
        (fun p => (p.1.split_id, p.2.split_id)) = [(1, 2), (2, 1)]) ∧
    (∀ p ∈ foldPairs [⟨1, []⟩, ⟨2, []⟩] [⟨1, 1, 1, 1, [], []⟩, ⟨2, 1, 1, 1, [], []⟩],
      p.1.split_id ≠ p.2.split_id) := by
  have h := find_candidates_threshold_pairing [⟨1, []⟩, ⟨2, []⟩]
    [⟨1, 1, 1, 1, [], []⟩, ⟨2, 1, 1, 1, [], []⟩] 1 2 rfl rfl (by norm_num)
  exact ⟨⟨rfl, rfl⟩, h.1, h.2.1⟩

lemma keyTime_inj {a b : ℤ} (h : keyTime a = keyTime b) : a = b := by
  rw [keyTime, keyTime, div_eq_div_iff (by norm_num) (by norm_num)] at h
  exact_mod_cast mul_right_cancel₀ (by norm_num : (1000000 : ℚ) ≠ 0) h

lemma assoc_nodup_eq {m : List (ℤ × List Det)} (hnd : (m.map Prod.fst).Nodup)
    {k : ℤ} {a b : List Det} (ha : (k, a) ∈ m) (hb : (k, b) ∈ m) : a = b := by
  induction m with
  | nil => cases ha
  | cons p rest ih =>
    rw [List.map_cons] at hnd
    have hnd' := List.nodup_cons.mp hnd
    rcases List.mem_cons.mp ha with ha1 | ha' <;> rcases List.mem_cons.mp hb with hb1 | hb'
    · have : (k, a) = (k, b) := ha1.trans hb1.symm
      exact congrArg Prod.snd this
    · exfalso
      apply hnd'.1
      have hk : k ∈ List.map Prod.fst rest := List.mem_map_of_mem Prod.fst hb'
      rw [← ha1]
      exact hk
    · exfalso
      apply hnd'.1
      have hk : k ∈ List.map Prod.fst rest := List.mem_map_of_mem Prod.fst ha'
      rw [← hb1]
      exact hk
    · exact ih hnd'.2 ha' hb'

lemma countP_key_eq_one {m : List (ℤ × List Det)} (hnd : (m.map Prod.fst).Nodup)
    {k : ℤ} {c : List Det} (hm : (k, c) ∈ m) :
    m.countP (fun p => p.1 = k) = 1 := by
  induction m with
  | nil => cases hm
  | cons p rest ih =>
    rw [List.map_cons] at hnd
    have hnd' := List.nodup_cons.mp hnd
    rcases List.mem_cons.mp hm with hp | hm'
    · rw [List.countP_cons, List.countP_eq_zero.mpr, ← hp]
      · simp
      · intro q hq
        simp only [decide_eq_true_eq]
        intro hqk
        apply hnd'.1
        have : q.1 ∈ List.map Prod.fst rest := List.mem_map_of_mem Prod.fst hq
        rw [hqk] at this
        rw [← hp]
        exact this
    · rw [List.countP_cons, ih hnd'.2 hm']
      have hpk : p.1 ≠ k := by
        intro hpk
        apply hnd'.1
        rw [hpk]
        exact List.mem_map_of_mem Prod.fst hm'
      simp [hpk]

/-- C2: in the emission step of `find_candidates`, a time key with exactly
one accumulated confidence factor never yields a candidate, while a key
whose factors come from at least two distinct fold pairs yields exactly one
candidate, whose mean factor is the arithmetic mean of its accumulated
factors.  The hypotheses state that the accumulation map has distinct keys
(it is a dict) and that no key holds more than two factors: a segment is
scored by exactly the two fold models not trained on it, so a time key
collects at most two factors — with more, the fixed two-factor-column
dtype would make `np.array` raise before any candidate is produced. -/
theorem find_candidates_corroboration (m : List (ℤ × List Det))
    (hnd : (m.map Prod.fst).Nodup) (h2 : ∀ p ∈ m, p.2.length ≤ 2)
    (k : ℤ) (c : List Det) (hmem : (k, c) ∈ m) :
    (c.length = 1 → ∀ cands, emitCandidates m = .ok cands →
      ∀ cand ∈ cands, cand.time ≠ keyTime k) ∧
    ((∃ d1 ∈ c, ∃ d2 ∈ c, (d1.modelIdx, d1.pairIdx) ≠ (d2.modelIdx, d2.pairIdx)) →
      ∃ cands, emitCandidates m = .ok cands ∧
        (cands.filter (fun cand => cand.time = keyTime k)).length = 1 ∧
        ∀ cand ∈ cands, cand.time = keyTime k →
          cand.mean_factor = (c.map Det.factor).sum / (c.length : ℚ)) := by
  have hkeep : ((m.filter (fun p => 1 < p.2.length)).all
      (fun p => p.2.length = 2)) = true := by
    rw [List.all_eq_true]
    intro p hp
    have hpf := List.mem_filter.mp hp
    have hle := h2 p hpf.1
    have h1 : 1 < p.2.length := by simpa using hpf.2
    simp only [decide_eq_true_eq]
    omega
  have hemit : emitCandidates m
      = .ok ((m.filter (fun p => 1 < p.2.length)).map
          (fun p => mkCandidate p.1 p.2)) := by
    rw [emitCandidates, if_pos hkeep]
  constructor
  · intro h1 cands hcands cand hcand htime
    rw [hemit] at hcands
    injection hcands with hcands
    rw [← hcands] at hcand
    rcases List.mem_map.mp hcand with ⟨p, hp, rfl⟩
    have hpf := List.mem_filter.mp hp
    have hpk : p.1 = k := keyTime_inj htime
    have hpc : p.2 = c := by
      apply assoc_nodup_eq hnd _ hmem
      rw [← hpk]
      exact hpf.1
    have hlen : 1 < p.2.length := by simpa using hpf.2
    rw [hpc, h1] at hlen
    omega
  · rintro ⟨d1, hd1, d2, hd2, hprov⟩
    have hclen : 1 < c.length := by
      rcases c with _ | ⟨d, _ | ⟨d', rest⟩⟩
      · cases hd1
      · rcases List.mem_singleton.mp hd1 with rfl
        rcases List.mem_singleton.mp hd2 with rfl
        exact absurd rfl hprov
      · simp
    have hkc : (k, c) ∈ m.filter (fun p => 1 < p.2.length) := by
      rw [List.mem_filter]
      exact ⟨hmem, by simpa using hclen⟩
    refine ⟨_, hemit, ?_, ?_⟩
    · rw [← List.countP_eq_length_filter, List.countP_map]
      have hcong : ((m.filter (fun p => 1 < p.2.length)).countP
            ((fun cand => decide (cand.time = keyTime k))
              ∘ (fun p => mkCandidate p.1 p.2)))
          = ((m.filter (fun p => 1 < p.2.length)).countP
              (fun p => decide (p.1 = k))) := by
        apply List.countP_congr
        intro q _
        have hqt : (mkCandidate q.1 q.2).time = keyTime q.1 := rfl
        simp only [Function.comp_apply, hqt, decide_eq_true_eq]
        exact ⟨fun h => keyTime_inj h, fun h => by rw [h]⟩
      rw [hcong]
      apply countP_key_eq_one _ hkc
      exact ((List.filter_sublist m).map Prod.fst).nodup hnd
    · intro cand hcand htime
      rcases List.mem_map.mp hcand with ⟨p, hp, rfl⟩
      have hpf := List.mem_filter.mp hp
      have hpk : p.1 = k := keyTime_inj htime
      have hpc : p.2 = c := by
        apply assoc_nodup_eq hnd _ hmem
        rw [← hpk]
        exact hpf.1
      rw [mkCandidate, hpc]

/-- Witness for `find_candidates_corroboration` on a concrete accumulation
map: key 5 holds factors 2 and 3 from two distinct fold pairs, key 9 holds
a single factor. -/
theorem find_candidates_corroboration_witness :
    (([(5, [⟨0, 0, 5, 3, 2⟩, ⟨1, 0, 5, 3, 3⟩]), (9, [⟨0, 1, 9, 4, 7⟩])]
        : List (ℤ × List Det)).map Prod.fst).Nodup ∧
    (∃ cands, emitCandidates
        [(5, [⟨0, 0, 5, 3, 2⟩, ⟨1, 0, 5, 3, 3⟩]), (9, [⟨0, 1, 9, 4, 7⟩])]
        = .ok cands ∧
      (cands.filter (fun cand => cand.time = keyTime 5)).length = 1 ∧
      ∀ cand ∈ cands, cand.time = keyTime 5 →
        cand.mean_factor
          = (([⟨0, 0, 5, 3, 2⟩, ⟨1, 0, 5, 3, 3⟩] : List Det).map Det.factor).sum
            / (([⟨0, 0, 5, 3, 2⟩, ⟨1, 0, 5, 3, 3⟩] : List Det).length : ℚ)) := by
  have h := find_candidates_corroboration
    [(5, [⟨0, 0, 5, 3, 2⟩, ⟨1, 0, 5, 3, 3⟩]), (9, [⟨0, 1, 9, 4, 7⟩])]
    (by simp)
    (by
      intro p hp
      rcases List.mem_cons.mp hp with rfl | hp'
      · simp
      · rcases List.mem_singleton.mp hp' with rfl
        simp)
    5 [⟨0, 0, 5, 3, 2⟩, ⟨1, 0, 5, 3, 3⟩] (by simp)
  refine ⟨by simp, h.2 ?_⟩
  exact ⟨⟨0, 0, 5, 3, 2⟩, by simp, ⟨1, 0, 5, 3, 3⟩, by simp, by decide⟩

/-- Loop invariant of the deduplication: selected candidates are pairwise at
least the window apart, every still-unresolved candidate is at least the
window away from every selected one, and every selected candidate's
`num_points` is the number of (original) candidates within the window of
it. -/
def DedupInv {n : ℕ} (t : Fin n → ℚ) (w : ℚ) (st : DedupState n) : Prop :=
  (∀ i ∈ st.finals, ∀ j ∈ st.finals, i ≠ j → w ≤ |t i - t j|) ∧
  (∀ i ∈ st.finals, ∀ j ∈ st.unres, w ≤ |t i - t j|) ∧
  (∀ i ∈ st.finals,
    st.numPts i = (Finset.univ.filter (fun j => |t j - t i| < w)).card)

lemma dedupSelect_mem {n : ℕ} (f : Fin n → ℚ) (s : Finset (Fin n)) (h : s.Nonempty) :
    dedupSelect f s h ∈ s :=
  (Finset.mem_filter.mp (Finset.min'_mem _ _)).1

lemma dedupStep_inv {n : ℕ} (t f : Fin n → ℚ) (w : ℚ) (st : DedupState n)
    (hinv : DedupInv t w st) : DedupInv t w (dedupStep t f w st) := by
  obtain ⟨p1, p2, p3⟩ := hinv
  by_cases h : st.unres.Nonempty
  · rw [dedupStep, dif_pos h]
    have hi0 : dedupSelect f st.unres h ∈ st.unres := dedupSelect_mem f st.unres h
    refine ⟨?_, ?_, ?_⟩
    · intro a ha b hb hab
      simp only [Finset.mem_insert] at ha hb
      rcases ha with rfl | ha
      · rcases hb with rfl | hb
        · exact absurd rfl hab
        · have hx := p2 b hb _ hi0
          rwa [abs_sub_comm] at hx
      · rcases hb with rfl | hb
        · exact p2 a ha _ hi0
        · exact p1 a ha b hb hab
    · intro a ha j hj
      simp only [Finset.mem_sdiff, Finset.mem_filter, Finset.mem_univ, true_and,
        not_lt] at hj
      obtain ⟨hju, hjn⟩ := hj
      simp only [Finset.mem_insert] at ha
      rcases ha with rfl | ha
      · rwa [abs_sub_comm] at hjn
      · exact p2 a ha j hju
    · intro a ha
      simp only [Finset.mem_insert] at ha
      rcases ha with rfl | ha
      · simp
      · by_cases hai : a = dedupSelect f st.unres h
        · subst hai
          simp
        · simpa [hai] using p3 a ha
  · rw [dedupStep, dif_neg h]
    exact ⟨p1, p2, p3⟩

lemma dedupLoop_inv {n : ℕ} (t f : Fin n → ℚ) (w : ℚ) :
    ∀ (fuel : ℕ) (st : DedupState n),
      DedupInv t w st → DedupInv t w (dedupLoop t f w fuel st) := by
  intro fuel
  induction fuel with
  | zero => exact fun st h => h
  | succ fu ih =>
    intro st h
    rw [dedupLoop]
    by_cases hne : st.unres.Nonempty
    · rw [if_pos hne]
      exact ih _ (dedupStep_inv t f w st h)
    · rw [if_neg hne]
      exact h

lemma dedupFinal_inv (w : ℚ) (cands : List Candidate) :
    DedupInv (fun i => (cands.get i).time) w (dedupFinal w cands) := by
  apply dedupLoop_inv
  exact ⟨fun i hi => by simp at hi, fun i hi => by simp at hi, fun i hi => by simp at hi⟩

/-- C3: on any candidate set and positive window, the rows returned by the
deduplication loop of `find_candidates` are pairwise at least the window
apart in time, and each returned row's `num_points` is the number of
candidate rows (resolved or not — the count ranges over the whole array and
never changes while the loop runs) whose time is within the window of it. -/
theorem find_candidates_dedup (w : ℚ) (cands : List Candidate) (hw : 0 < w) :
    (∀ i j (hi : i < (dedup w cands).length) (hj : j < (dedup w cands).length),
      i ≠ j →
      w ≤ |((dedup w cands).get ⟨i, hi⟩).time - ((dedup w cands).get ⟨j, hj⟩).time|) ∧
    (∀ i (hi : i < (dedup w cands).length),
      ((dedup w cands).get ⟨i, hi⟩).num_points
        = (Finset.univ.filter (fun j : Fin cands.length =>
            |(cands.get j).time - ((dedup w cands).get ⟨i, hi⟩).time| < w)).card) := by
  obtain ⟨p1, p2, p3⟩ := dedupFinal_inv w cands
  set L := (List.finRange cands.length).filter
    (fun i => i ∈ (dedupFinal w cands).finals) with hLdef
  set g := (fun a : Fin cands.length =>
    { cands.get a with num_points := (dedupFinal w cands).numPts a }) with hgdef
  have hdef : dedup w cands = L.map g := rfl
  have hLnd : L.Nodup := (List.nodup_finRange _).filter _
  have hlen : (dedup w cands).length = L.length := by
    rw [hdef, List.length_map]
  have hget : ∀ i (hi : i < (dedup w cands).length),
      (dedup w cands).get ⟨i, hi⟩ = g (L.get ⟨i, hlen ▸ hi⟩) := by
    intro i hi
    have hi2 : i < (L.map g).length := by
      rw [← hdef]
      exact hi
    calc (dedup w cands).get ⟨i, hi⟩ = (L.map g).get ⟨i, hi2⟩ := rfl
      _ = g (L.get ⟨i, hlen ▸ hi⟩) := by
          rw [List.get_eq_getElem, List.get_eq_getElem, List.getElem_map]
  have hmemf : ∀ i (hi : i < (dedup w cands).length),
      L.get ⟨i, hlen ▸ hi⟩ ∈ (dedupFinal w cands).finals := by
    intro i hi
    have hmem := List.get_mem L i (hlen ▸ hi)
    simpa using (List.mem_filter.mp hmem).2
  have hgt : ∀ a : Fin cands.length, (g a).time = (cands.get a).time := fun a => rfl
  have hgn : ∀ a : Fin cands.length,
      (g a).num_points = (dedupFinal w cands).numPts a := fun a => rfl
  constructor
  · intro i j hi hj hij
    rw [hget i hi, hget j hj, hgt, hgt]
    apply p1 _ (hmemf i hi) _ (hmemf j hj)
    intro hcontra
    apply hij
    have hinj := List.nodup_iff_injective_get.mp hLnd
    exact congrArg Fin.val (hinj hcontra)
  · intro i hi
    rw [hget i hi, hgt, hgn]
    exact p3 _ (hmemf i hi)

/-- Two concrete corroborated candidates half a day apart. -/
def candsEx : List Candidate :=
  [⟨100, 0, 0, 2, 1, 1⟩, ⟨100 + 1/2, 0, 0, 1, 1, 1⟩]

/-! ### Training one fold (Model.fit_split, lines 165-247)

Everything sklearn computes — the untrained classifier object, the fit
outcome, the probability predictions, the raw precision/recall curve and
its area — enters through a `TrainOracle`.  The arithmetic and control flow
of `fit_split` itself (the split check, the model cache, the dataset
generation, the `vs = range(3); del vs[split]` bookkeeping, the appended
1.0 threshold and the operating-threshold selection) are translated
directly.  The dict `d` is cached in `self.models[split]` at line 178,
before training: a `clf.fit` exception therefore leaves the cached dict
holding only `split_id` and `classifier`. -/

/-- The external (sklearn / random) inputs of one `fit_split` run. -/
structure TrainOracle where
  dataset : ℕ
  newClf : ℕ
  fitres : Except Unit ℕ
  predValid : ℕ → List ℚ
  rawPrc : ℕ → List ℚ × List ℚ × List ℚ
  aucOf : ℕ → ℚ
  predTest : ℕ → List PredPoint

/-- `Model.fit_split`.  Returns the model state after the call together
with the returned fold dict or the raised exception; on an exception the
first component is the state the mutations have already produced. -/
def fit_split (or : TrainOracle) (m : PModel) (split : ℕ) (refit : Bool)
    (prec_req : ℚ) : PModel × Except PyErr FoldModel :=
  if split < m.models.length then
    match m.models.getD split none, refit with
    | some fm, false => (m, .ok fm)
    | _, _ =>
      let m1 : PModel := if m.X.isNone then { m with X := some or.dataset } else m
      let part : FoldModel := ⟨split, some or.newClf, none, none⟩
      let m2 : PModel := { m1 with models := m1.models.set split (some part) }
      match or.fitres with
      | .error _ => (m2, .error .externalError)
      | .ok tclf =>
        let vs := (List.range 3).filter (fun s => s ≠ split)
        let valids := vs.map (fun s =>
          let prcRaw := or.rawPrc s
          let prc := buildPRC prcRaw.1 prcRaw.2.1 prcRaw.2.2
          (⟨s, prec_req, selectThreshold prc prec_req, or.aucOf s, prc,
            or.predValid s⟩ : ValidRes))
        let tests := vs.map (fun s => (⟨s, or.predTest s⟩ : TestRes))
        let fm : FoldModel := ⟨split, some tclf, some valids, some tests⟩
        ({ m2 with models := m2.models.set split (some fm) }, .ok fm)
  else (m, .error .valueError)

lemma exists_mem_enumFrom {α : Type _} (l : List α) :
    ∀ (n : ℕ) {x : α}, x ∈ l → ∃ k, (k, x) ∈ l.enumFrom n := by
  induction l with
  | nil =>
    intro n x h
    cases h
  | cons a t ih =>
    intro n x h
    rcases List.mem_cons.mp h with rfl | h'
    · exact ⟨n, List.mem_cons_self _ _⟩
    · rcases ih (n + 1) h' with ⟨k, hk⟩
      exact ⟨k, List.mem_cons_of_mem _ hk⟩

lemma detsOfModel_cases (i : ℕ) (fm : FoldModel) :
    detsOfModel i fm = .error .keyError ∨ ∃ v, detsOfModel i fm = .ok v := by
  rcases ht : fm.test with _ | ts <;> rcases hv : fm.validation with _ | vl <;>
    simp [detsOfModel, ht, hv]

lemma collectDets_keyError (l : List (ℕ × FoldModel))
    (hex : ∃ p ∈ l, detsOfModel p.1 p.2 = .error .keyError) :
    collectDets l = .error .keyError := by
  induction l with
  | nil =>
    rcases hex with ⟨p, hp, _⟩
    cases hp
  | cons a t ih =>
    rcases hex with ⟨p, hp, hperr⟩
    rcases List.mem_cons.mp hp with rfl | hp'
    · rw [collectDets, hperr]
    · rcases detsOfModel_cases a.1 a.2 with ha | ⟨v, ha⟩
      · rw [collectDets, ha]
      · rw [collectDets, ha, ih ⟨p, hp', hperr⟩]

/-- An oracle whose `clf.fit` raises. -/
def orFail : TrainOracle :=
  ⟨0, 7, .error (), fun _ => [], fun _ => ([], [], []), fun _ => 0, fun _ => []⟩

/-- An oracle whose `clf.fit` succeeds. -/
def orGood : TrainOracle :=
  ⟨0, 8, .ok 9, fun _ => [], fun _ => ([], [], []), fun _ => 0, fun _ => []⟩

/-- A freshly constructed model, nothing trained. -/
def mFresh : PModel := ⟨[], 100, none, none, [none, none, none]⟩

/-- A completely trained fold dict (empty result lists). -/
def fmDone (s : ℕ) : FoldModel := ⟨s, some 1, some [], some []⟩

/-- A model with folds 1 and 2 trained and the dataset formatted. -/
def mTwoTrained : PModel :=
  ⟨[], 100, none, some 0, [none, some (fmDone 1), some (fmDone 2)]⟩

/-- C7 counterexample: when `clf.fit` raises during `fit_split(0)` on a
fresh model, the cache slot 0 is left holding the partial dict (it is set
before training), a subsequent `fit_split(0)` — even with a working
classifier — returns that partial dict without retraining, and on a model
whose other two folds are fully trained, `find_candidates` afterwards
raises KeyError (the partial dict lacks `"test"`), not the not-ready
RuntimeError. -/
theorem fit_split_failure_counterexample :
    (fit_split orFail mFresh 0 false 1).1.models.getD 0 none
        = some ⟨0, some 7, none, none⟩ ∧
    (fit_split orFail mFresh 0 false 1).2 = .error .externalError ∧
    fit_split orGood (fit_split orFail mFresh 0 false 1).1 0 false 1
        = ((fit_split orFail mFresh 0 false 1).1, .ok ⟨0, some 7, none, none⟩) ∧
    find_candidates (fit_split orFail mTwoTrained 0 false 1).1 4
        = .error .keyError := by
  refine ⟨rfl, rfl, rfl, ?_⟩
  have hstate : (fit_split orFail mTwoTrained 0 false 1).1
      = ⟨[], 100, none, some 0,
          [some ⟨0, some 7, none, none⟩, some (fmDone 1), some (fmDone 2)]⟩ := rfl
  rw [hstate]
  rfl

/-- C7 (amended): if `clf.fit` raises while `fit_split` trains a fresh
split, the partially built fold dict (classifier constructed, no
validation/test results) stays cached and counts as trained: a later
`fit_split` for that split returns it unchanged instead of retraining
(whatever oracle it would train with), `find_candidates` still raises the
not-ready error only while some other slot is untrained, and once every
slot is occupied it instead fails with the missing-key error. -/
theorem fit_split_failure_state (or or2 : TrainOracle) (m : PModel) (split : ℕ)
    (prec_req prec_req2 : ℚ) (e : Unit)
    (hsplit : split < m.models.length)
    (hfresh : m.models.getD split none = none)
    (hfit : or.fitres = .error e) :
    ∃ m2, fit_split or m split false prec_req = (m2, .error .externalError) ∧
      m2.models.getD split none = some ⟨split, some or.newClf, none, none⟩ ∧
      fit_split or2 m2 split false prec_req2
        = (m2, .ok ⟨split, some or.newClf, none, none⟩) ∧
      ((∃ j, j < m2.models.length ∧ m2.models.getD j none = none) →
        ∀ wdw, find_candidates m2 wdw = .error .runtimeError) ∧
      ((∀ j, j < m2.models.length → (m2.models.getD j none).isSome = true) →
        ∀ wdw, find_candidates m2 wdw = .error .keyError) := by
  have hX : (if m.X.isNone then { m with X := some or.dataset } else m).X.isSome = true := by
    rcases hmx : m.X with _ | x
    · simp [hmx]
    · simp [hmx]
  set m1 : PModel := if m.X.isNone then { m with X := some or.dataset } else m with hm1
  have hm1models : m1.models = m.models := by
    rw [hm1]
    rcases hmx : m.X with _ | x <;> simp [hmx]
  set part : FoldModel := ⟨split, some or.newClf, none, none⟩ with hpart
  set m2 : PModel := { m1 with models := m1.models.set split (some part) } with hm2
  have hrun : fit_split or m split false prec_req = (m2, .error .externalError) := by
    rw [fit_split.eq_def, if_pos hsplit, hfresh, hfit]
  have hm2len : m2.models.length = m.models.length := by
    rw [hm2]
    simp [hm1models]
  have hsplit2 : split < m2.models.length := by
    rw [hm2len]
    exact hsplit
  have hm2get : m2.models.getD split none = some part := by
    rw [List.getD_eq_getElem?_getD, hm2]
    simp only
    rw [List.getElem?_set_eq_of_lt]
    · rfl
    · rw [hm1models]
      exact hsplit
  have hcached : fit_split or2 m2 split false prec_req2 = (m2, .ok part) := by
    rw [fit_split.eq_def, if_pos hsplit2, hm2get]
  refine ⟨m2, hrun, hm2get, hcached, ?_, ?_⟩
  · rintro ⟨j, hj, hjnone⟩ wdw
    have hje : m2.models[j] = none := by
      rw [List.getD_eq_getElem?_getD, List.getElem?_eq_getElem hj] at hjnone
      simpa using hjnone
    have hany : m2.models.any (fun o => o.isNone) = true := by
      rw [List.any_eq_true]
      exact ⟨none, List.mem_iff_getElem.mpr ⟨j, hj, hje⟩, rfl⟩
    rw [find_candidates, if_pos hany]
  · intro hall wdw
    have hany : m2.models.any (fun o => o.isNone) = false := by
      rw [List.any_eq_false]
      intro o ho
      rcases List.mem_iff_getElem.mp ho with ⟨j, hj, hje⟩
      have hs := hall j hj
      rw [List.getD_eq_getElem?_getD, List.getElem?_eq_getElem hj, hje] at hs
      simp only [Option.getD_some] at hs
      cases o with
      | none => simp at hs
      | some fm => simp
    have hXs : m2.X.isSome = true := hX
    rcases hXv : m2.X with _ | xv
    · rw [hXv] at hXs
      simp at hXs
    · have hgetel : m2.models[split] = some part := by
        have hmg := hm2get
        rw [List.getD_eq_getElem?_getD, List.getElem?_eq_getElem hsplit2] at hmg
        simpa using hmg
      have hpartmem : part ∈ m2.models.filterMap id := by
        apply List.mem_filterMap.mpr
        exact ⟨some part, List.mem_iff_getElem.mpr ⟨split, hsplit2, hgetel⟩, rfl⟩
      rcases exists_mem_enumFrom _ 0 hpartmem with ⟨k, hk⟩
      have hcoll : collectDets (m2.models.filterMap id).enum = .error .keyError := by
        apply collectDets_keyError
        exact ⟨(k, part), hk, rfl⟩
      rw [find_candidates, if_neg (by rw [hany]; exact Bool.false_ne_true), hXv, hcoll]

/-- Witness for `fit_split_failure_state` on the fresh model and failing
oracle of the counterexample. -/
theorem fit_split_failure_state_witness :
    (0 < mFresh.models.length ∧ mFresh.models.getD 0 none = none ∧
      orFail.fitres = .error ()) ∧
    (∃ m2, fit_split orFail mFresh 0 false 1 = (m2, .error .externalError) ∧
      m2.models.getD 0 none = some ⟨0, some orFail.newClf, none, none⟩ ∧
      fit_split orGood m2 0 false 1
        = (m2, .ok ⟨0, some orFail.newClf, none, none⟩) ∧
      ((∃ j, j < m2.models.length ∧ m2.models.getD j none = none) →
        ∀ wdw, find_candidates m2 wdw = .error .runtimeError) ∧
      ((∀ j, j < m2.models.length → (m2.models.getD j none).isSome = true) →
        ∀ wdw, find_candidates m2 wdw = .error .keyError)) :=
  ⟨⟨by norm_num [mFresh], rfl, rfl⟩,
    fit_split_failure_state orFail orGood mFresh 0 1 1 ()
      (by norm_num [mFresh]) rfl rfl⟩

/-! ### Persistence (Model.to_hdf lines 322-360, Model.from_hdf lines 362-398)

`to_hdf` writes, per trained fold, a group `section_{split:03d}` holding
the pickled classifier and one subgroup per validation / test entry, named
`validation_{id}` / `test_{id}`.  `from_hdf` builds a fresh model
(`cls(lcs, **kwargs)`) and reads the groups back; `for k0 in g` iterates
h5py subgroup names alphabetically, and since the ids are the single
digits 0-2 that is ascending id order, so the lists come back sorted by
split id.  Accessing a missing dict key while writing raises KeyError, and
creating two groups with the same name raises ValueError; `pickle` round
trips the classifier blob unchanged.  The formatted training set `self.X`
is NOT serialized. -/

/-- One `section_{split:03d}` group of the file. -/
structure HSection where
  split_id : ℕ
  clf_blob : ℕ
  valids : List ValidRes
  tests : List TestRes
deriving DecidableEq, Repr

/-- Write one fold dict into its group. -/
def sectionOf (fm : FoldModel) : Except PyErr HSection :=
  match fm.classifier, fm.validation, fm.test with
  | some cb, some vl, some tl =>
    if (vl.map ValidRes.split_id).Nodup ∧ (tl.map TestRes.split_id).Nodup then
      .ok ⟨fm.split_id, cb, vl, tl⟩
    else .error .valueError
  | _, _, _ => .error .keyError

/-- The `for results in self.models` loop of `to_hdf`: `None` entries are
skipped, the rest are written in order. -/
def to_hdfGo : List (Option FoldModel) → Except PyErr (List HSection)
  | [] => .ok []
  | none :: rest => to_hdfGo rest
  | some fm :: rest =>
    match sectionOf fm with
    | .error e => .error e
    | .ok sec =>
      match to_hdfGo rest with
      | .error e => .error e
      | .ok secs => .ok (sec :: secs)

/-- `Model.to_hdf`. -/
def to_hdf (m : PModel) : Except PyErr (List HSection) :=
  to_hdfGo m.models

/-- Alphabetical iteration over `validation_{id}` names: ascending id. -/
def sortValidsById (vl : List ValidRes) : List ValidRes :=
  vl.insertionSort (fun a b => a.split_id ≤ b.split_id)

/-- Alphabetical iteration over `test_{id}` names: ascending id. -/
def sortTestsById (tl : List TestRes) : List TestRes :=
  tl.insertionSort (fun a b => a.split_id ≤ b.split_id)

/-- Load one section into its slot (`self.models[d["split_id"]] = d`). -/
def loadSection (acc : PModel) (sec : HSection) : PModel :=
  { acc with
    models := acc.models.set sec.split_id
      (some ⟨sec.split_id, some sec.clf_blob, some (sortValidsById sec.valids),
        some (sortTestsById sec.tests)⟩) }

/-- `Model.from_hdf`: construct a fresh model over the given segments, then
load every section into the slot named by its `split_id` attribute. -/
def from_hdf (pywtAvailable : Bool) (f : List HSection) (lcs : List LC)
    (wavelet : Option ℕ) (half_width : ℕ) : Except PyErr PModel :=
  match modelInit pywtAvailable lcs wavelet half_width with
  | .error e => .error e
  | .ok base => .ok (f.foldl loadSection base)

/-- A concrete stored validation entry. -/
def vRes (s : ℕ) : ValidRes := ⟨s, 1, 3/10, 1, prcEx, [1/2]⟩

/-- A concrete stored test entry. -/
def tRes (s : ℕ) : TestRes := ⟨s, [⟨0, 100, 9/10⟩]⟩

/-- A fully trained model (all three folds, dataset formatted). -/
def mTrained : PModel :=
  ⟨[], 100, none, some 3,
    [some ⟨0, some 5, some [vRes 1, vRes 2], some [tRes 1, tRes 2]⟩,
     some ⟨1, some 6, some [vRes 0, vRes 2], some [tRes 0, tRes 2]⟩,
     some ⟨2, some 7, some [vRes 0, vRes 1], some [tRes 0, tRes 1]⟩]⟩

/-- C5 counterexample: saving the fully trained `mTrained` and reloading it
succeeds, but `find_candidates` on the reloaded model raises TypeError
(`self.X` — the formatted synthetic training set the KD trees are built
from on line 255 — is not serialized, and the reloaded model returns its
cached fold dicts without ever regenerating it), so the reloaded FoldModel
set is NOT sufficient to run the candidate aggregation without retraining,
contradicting that part of the claim. -/
theorem persistence_counterexample :
    (to_hdf mTrained).isOk = true ∧
    ((to_hdf mTrained).bind (fun f =>
      (from_hdf true f [] none 100).bind (fun r => find_candidates r 4)))
      = .error .typeError := by
  constructor
  · rfl
  · rfl

/-- C5 (amended): saving a model whose three folds are fully trained and
reloading the file reproduces the fold dicts EXACTLY — identical operating
thresholds, precision/recall curves, areas, validation predictions,
classifier state and test predictions per fold — but the reloaded model
has no formatted dataset (`X = none`), so `find_candidates` on it raises
TypeError instead of running: the persisted artifacts alone are not
sufficient to run the Candidate Aggregator.  Each fold's validation and
test lists are assumed stored in ascending split-id order without
duplicates, which is how `fit_split` builds them (`vs = range(3)` minus
`split`). -/
theorem persistence_roundtrip (pywt : Bool) (lcs lcs2 : List LC) (hw hw2 : ℕ)
    (X : Option ℕ) (cb0 cb1 cb2 : ℕ)
    (vl0 vl1 vl2 : List ValidRes) (tl0 tl1 tl2 : List TestRes)
    (hv0 : vl0.Sorted (fun a b => a.split_id ≤ b.split_id))
    (hv1 : vl1.Sorted (fun a b => a.split_id ≤ b.split_id))
    (hv2 : vl2.Sorted (fun a b => a.split_id ≤ b.split_id))
    (ht0 : tl0.Sorted (fun a b => a.split_id ≤ b.split_id))
    (ht1 : tl1.Sorted (fun a b => a.split_id ≤ b.split_id))
    (ht2 : tl2.Sorted (fun a b => a.split_id ≤ b.split_id))
    (hn0 : (vl0.map ValidRes.split_id).Nodup ∧ (tl0.map TestRes.split_id).Nodup)
    (hn1 : (vl1.map ValidRes.split_id).Nodup ∧ (tl1.map TestRes.split_id).Nodup)
    (hn2 : (vl2.map ValidRes.split_id).Nodup ∧ (tl2.map TestRes.split_id).Nodup) :
    ∃ f r,
      to_hdf ⟨lcs, hw, none, X,
        [some ⟨0, some cb0, some vl0, some tl0⟩,
         some ⟨1, some cb1, some vl1, some tl1⟩,
         some ⟨2, some cb2, some vl2, some tl2⟩]⟩ = .ok f ∧
      from_hdf pywt f lcs2 none hw2 = .ok r ∧
      r.models = [some ⟨0, some cb0, some vl0, some tl0⟩,
        some ⟨1, some cb1, some vl1, some tl1⟩,
        some ⟨2, some cb2, some vl2, some tl2⟩] ∧
      r.X = none ∧
      (∀ w, find_candidates r w = .error .typeError) := by
  have hs0 : sectionOf ⟨0, some cb0, some vl0, some tl0⟩ = .ok ⟨0, cb0, vl0, tl0⟩ := by
    rw [sectionOf]
    exact if_pos hn0
  have hs1 : sectionOf ⟨1, some cb1, some vl1, some tl1⟩ = .ok ⟨1, cb1, vl1, tl1⟩ := by
    rw [sectionOf]
    exact if_pos hn1
  have hs2 : sectionOf ⟨2, some cb2, some vl2, some tl2⟩ = .ok ⟨2, cb2, vl2, tl2⟩ := by
    rw [sectionOf]
    exact if_pos hn2
  have hf : to_hdf ⟨lcs, hw, none, X,
      [some ⟨0, some cb0, some vl0, some tl0⟩,
       some ⟨1, some cb1, some vl1, some tl1⟩,
       some ⟨2, some cb2, some vl2, some tl2⟩]⟩
      = .ok [⟨0, cb0, vl0, tl0⟩, ⟨1, cb1, vl1, tl1⟩, ⟨2, cb2, vl2, tl2⟩] := by
    rw [to_hdf]
    simp only
    rw [to_hdfGo, hs0, to_hdfGo, hs1, to_hdfGo, hs2, to_hdfGo]
  have hsortv : ∀ (vl : List ValidRes),
      vl.Sorted (fun a b => a.split_id ≤ b.split_id) → sortValidsById vl = vl :=
    fun vl h => List.Sorted.insertionSort_eq h
  have hsortt : ∀ (tl : List TestRes),
      tl.Sorted (fun a b => a.split_id ≤ b.split_id) → sortTestsById tl = tl :=
    fun tl h => List.Sorted.insertionSort_eq h
  have hinit : modelInit pywt lcs2 none hw2
      = .ok ⟨lcs2.filter (fun lc => 2 * hw2 < lc.nsamp), hw2, none, none,
          [none, none, none]⟩ := by
    simp [modelInit]
  refine ⟨[⟨0, cb0, vl0, tl0⟩, ⟨1, cb1, vl1, tl1⟩, ⟨2, cb2, vl2, tl2⟩],
    ⟨lcs2.filter (fun lc => 2 * hw2 < lc.nsamp), hw2, none, none,
      [some ⟨0, some cb0, some vl0, some tl0⟩,
       some ⟨1, some cb1, some vl1, some tl1⟩,
       some ⟨2, some cb2, some vl2, some tl2⟩]⟩, hf, ?_, rfl, rfl, ?_⟩
  · rw [from_hdf, hinit]
    simp only [List.foldl, loadSection]
    rw [hsortv vl0 hv0, hsortv vl1 hv1, hsortv vl2 hv2,
      hsortt tl0 ht0, hsortt tl1 ht1, hsortt tl2 ht2]
    rfl
  · intro w
    rfl

/-- Witness for `persistence_roundtrip` on the artifacts of `mTrained`. -/
theorem persistence_roundtrip_witness :
    (([vRes 1, vRes 2].map ValidRes.split_id).Nodup ∧
      ([tRes 1, tRes 2].map TestRes.split_id).Nodup) ∧
    (∃ f r,
      to_hdf ⟨[], 100, none, some 3,
        [some ⟨0, some 5, some [vRes 1, vRes 2], some [tRes 1, tRes 2]⟩,
         some ⟨1, some 6, some [vRes 0, vRes 2], some [tRes 0, tRes 2]⟩,
         some ⟨2, some 7, some [vRes 0, vRes 1], some [tRes 0, tRes 1]⟩]⟩ = .ok f ∧
      from_hdf true f [] none 100 = .ok r ∧
      r.models = [some ⟨0, some 5, some [vRes 1, vRes 2], some [tRes 1, tRes 2]⟩,
        some ⟨1, some 6, some [vRes 0, vRes 2], some [tRes 0, tRes 2]⟩,
        some ⟨2, some 7, some [vRes 0, vRes 1], some [tRes 0, tRes 1]⟩] ∧
      r.X = none ∧
      (∀ w, find_candidates r w = .error .typeError)) := by
  refine ⟨⟨by simp [vRes], by simp [tRes]⟩, ?_⟩
  exact persistence_roundtrip true [] [] 100 100 (some 3) 5 6 7
    [vRes 1, vRes 2] [vRes 0, vRes 2] [vRes 0, vRes 1]
    [tRes 1, tRes 2] [tRes 0, tRes 2] [tRes 0, tRes 1]
    (by simp [vRes, List.sorted_cons]) (by simp [vRes, List.sorted_cons])
    (by simp [vRes, List.sorted_cons]) (by simp [tRes, List.sorted_cons])
    (by simp [tRes, List.sorted_cons]) (by simp [tRes, List.sorted_cons])
    ⟨by simp [vRes], by simp [tRes]⟩ ⟨by simp [vRes], by simp [tRes]⟩
    ⟨by simp [vRes], by simp [tRes]⟩

/-- Witness for `find_candidates_dedup` at window 4 on `candsEx`. -/
theorem find_candidates_dedup_witness :
    (0 : ℚ) < 4 ∧
    ((∀ i j (hi : i < (dedup 4 candsEx).length) (hj : j < (dedup 4 candsEx).length),
      i ≠ j →
      4 ≤ |((dedup 4 candsEx).get ⟨i, hi⟩).time - ((dedup 4 candsEx).get ⟨j, hj⟩).time|) ∧
    (∀ i (hi : i < (dedup 4 candsEx).length),
      ((dedup 4 candsEx).get ⟨i, hi⟩).num_points
        = (Finset.univ.filter (fun j : Fin candsEx.length =>
            |(candsEx.get j).time - ((dedup 4 candsEx).get ⟨i, hi⟩).time| < 4)).card)) :=
  ⟨by norm_num, find_candidates_dedup 4 candsEx (by norm_num)⟩

/-! ### The Partitioner (Model.__init__, lines 43-73)

    quarters = np.array([lc.meta["quarter"] for lc in self.lcs])
    inds = np.arange(len(quarters))
    self.splits = [set() for _ in range(3)]
    for q in set(quarters):
        m = quarters == q
        i = inds[m]
        if m.sum() < 3:
            j = np.random.choice(3, size=m.sum(), replace=False)
            for j0, i0 in zip(j, i): self.splits[j0].add(i0)
        elif m.sum() == 3:
            np.random.shuffle(i)
            for j0, i0 in enumerate(i): self.splits[j0].add(i0)
        else:
            np.random.shuffle(i)
            w = self.weights[i]
            w /= w.sum()
            cs = np.cumsum(w)
            a, b = np.argmin(np.abs(cs-1./3)), np.argmin(np.abs(cs-2./3))
            self.splits[0] |= set(i[:a+1])
            self.splits[1] |= set(i[a+1:b+1])
            self.splits[2] |= set(i[b+1:])

The two numpy random draws are oracle parameters: `choose q k` models
`np.random.choice(3, size=k, replace=False)` (k distinct fold ids) and
`shuffle q l` models `np.random.shuffle` (a permutation of the group).
Python iterates `set(quarters)` in an unspecified order; the contributions
of distinct quarters touch disjoint index sets and are combined by union,
so the resulting splits do not depend on that order and the model fixes
first-occurrence order (`dedup`). -/

/-- The three index sets `self.splits`. -/
structure Splits where
  s0 : Finset ℕ
  s1 : Finset ℕ
  s2 : Finset ℕ
deriving DecidableEq

/-- Elementwise union of split triples. -/
def unionSplits (x y : Splits) : Splits :=
  ⟨x.s0 ∪ y.s0, x.s1 ∪ y.s1, x.s2 ∪ y.s2⟩

/-- All indices assigned by a split triple. -/
def splitsUnion (s : Splits) : Finset ℕ :=
  s.s0 ∪ s.s1 ∪ s.s2

/-- The three fold sets are pairwise disjoint. -/
def SplitsDisjoint (s : Splits) : Prop :=
  Disjoint s.s0 s.s1 ∧ Disjoint s.s0 s.s2 ∧ Disjoint s.s1 s.s2

/-- The numpy random draws consumed by one `__init__` run. -/
structure Oracle where
  choose : ℤ → ℕ → List (Fin 3)
  shuffle : ℤ → List ℕ → List ℕ

/-- `i = inds[quarters == q]`: the (ascending) indices of quarter `q`. -/
def quarterGroup (lcs : List LC) (q : ℤ) : List ℕ :=
  (List.range lcs.length).filter (fun i => ((lcs.get? i).map LC.quarter) = some q)

/-- `self.weights`: the footprints normalized by their total. -/
def globalWeights (lcs : List LC) : List ℚ :=
  lcs.map (fun lc => lc.footprint / (lcs.map LC.footprint).sum)

/-- `for j0, i0 in zip(j, i): self.splits[j0].add(i0)`. -/
def assignSmall (js : List (Fin 3)) (g : List ℕ) : Splits :=
  ⟨(((js.zip g).filter (fun p => p.1 = 0)).map Prod.snd).toFinset,
   (((js.zip g).filter (fun p => p.1 = 1)).map Prod.snd).toFinset,
   (((js.zip g).filter (fun p => p.1 = 2)).map Prod.snd).toFinset⟩

/-- The singleton set of an optional index. -/
def optFinset (o : Option ℕ) : Finset ℕ :=
  o.elim ∅ (fun x => {x})

/-- `for j0, i0 in enumerate(i): self.splits[j0].add(i0)` on a group of
exactly three (shuffled) indices. -/
def assignThree (g : List ℕ) : Splits :=
  ⟨optFinset (g.get? 0), optFinset (g.get? 1), optFinset (g.get? 2)⟩

/-- The footprint-weighted three-way cut of a (shuffled) group of more than
three indices. -/
def assignBig (weights : List ℚ) (g : List ℕ) : Splits :=
  let w := g.map (fun k => weights.getD k 0)
  let w2 := w.map (fun x => x / w.sum)
  let cs := cumsum w2
  let a := argminAbs (1/3) cs
  let b := argminAbs (2/3) cs
  ⟨(g.take (a + 1)).toFinset, ((g.drop (a + 1)).take (b - a)).toFinset,
   (g.drop (b + 1)).toFinset⟩

/-- The contribution of one quarter group to the splits. -/
def quarterContrib (lcs : List LC) (orc : Oracle) (q : ℤ) : Splits :=
  if (quarterGroup lcs q).length < 3 then
    assignSmall (orc.choose q (quarterGroup lcs q).length) (quarterGroup lcs q)
  else if (quarterGroup lcs q).length = 3 then
    assignThree (orc.shuffle q (quarterGroup lcs q))
  else
    assignBig (globalWeights lcs) (orc.shuffle q (quarterGroup lcs q))

/-- `set(quarters)` in first-occurrence order. -/
def quartersOf (lcs : List LC) : List ℤ :=
  (lcs.map LC.quarter).dedup

/-- The split computation of `Model.__init__` over the eligible segments. -/
def modelSplits (lcs0 : List LC) (hw : ℕ) (orc : Oracle) : Splits :=
  (quartersOf (lcs0.filter (fun lc => 2 * hw < lc.nsamp))).foldl
    (fun acc q => unionSplits acc
      (quarterContrib (lcs0.filter (fun lc => 2 * hw < lc.nsamp)) orc q))
    ⟨∅, ∅, ∅⟩

/-! #### Basic properties of `argminAbs` and `cumsum` -/

lemma argminAbs_lt_length (c : ℚ) (l : List ℚ) (h : l ≠ []) :
    argminAbs c l < l.length := by
  induction l with
  | nil => exact absurd rfl h
  | cons x t ih =>
    cases t with
    | nil => simp [argminAbs]
    | cons y r =>
      rw [argminAbs]
      by_cases hc : |x - c| ≤ listMinQ ((y :: r).map (fun z => |z - c|))
      · rw [if_pos hc]
        simp
      · rw [if_neg hc]
        have := ih (by simp)
        simpa using Nat.succ_lt_succ this

lemma listMinQ_map_cons2 (f : ℚ → ℚ) (x y : ℚ) (r : List ℚ) :
    listMinQ ((x :: y :: r).map f) = min (f x) (listMinQ ((y :: r).map f)) := rfl

lemma argminAbs_spec (c : ℚ) (l : List ℚ) (h : l ≠ []) :
    |l.get ⟨argminAbs c l, argminAbs_lt_length c l h⟩ - c|
      = listMinQ (l.map (fun z => |z - c|)) := by
  induction l with
  | nil => exact absurd rfl h
  | cons x t ih =>
    cases t with
    | nil => simp [argminAbs, listMinQ]
    | cons y r =>
      by_cases hc : |x - c| ≤ listMinQ ((y :: r).map (fun z => |z - c|))
      · have ha : argminAbs c (x :: y :: r) = 0 := by rw [argminAbs, if_pos hc]
        have hmin : listMinQ ((x :: y :: r).map (fun z => |z - c|))
            = |x - c| := by
          rw [listMinQ_map_cons2]
          exact min_eq_left hc
        rw [hmin]
        congr 1
        rw [List.get_eq_getElem]
        simp [ha]
      · have ha : argminAbs c (x :: y :: r) = argminAbs c (y :: r) + 1 := by
          rw [argminAbs, if_neg hc]
        have hmin : listMinQ ((x :: y :: r).map (fun z => |z - c|))
            = listMinQ ((y :: r).map (fun z => |z - c|)) := by
          rw [listMinQ_map_cons2]
          exact min_eq_right (le_of_lt (lt_of_not_le hc))
        rw [hmin, ← ih (by simp)]
        congr 1
        rw [List.get_eq_getElem, List.get_eq_getElem]
        simp [ha]

lemma argminAbs_earlier (c : ℚ) (l : List ℚ) :
    ∀ k (hkl : k < l.length), k < argminAbs c l →
      listMinQ (l.map (fun z => |z - c|)) < |l.get ⟨k, hkl⟩ - c| := by
  induction l with
  | nil =>
    intro k hkl
    simp at hkl
  | cons x t ih =>
    cases t with
    | nil =>
      intro k hkl hk
      simp [argminAbs] at hk
    | cons y r =>
      intro k hkl hk
      by_cases hc : |x - c| ≤ listMinQ ((y :: r).map (fun z => |z - c|))
      · rw [argminAbs, if_pos hc] at hk
        exact absurd hk (Nat.not_lt_zero k)
      · have hmin : listMinQ ((x :: y :: r).map (fun z => |z - c|))
            = listMinQ ((y :: r).map (fun z => |z - c|)) := by
          rw [listMinQ_map_cons2]
          exact min_eq_right (le_of_lt (lt_of_not_le hc))
        rw [argminAbs, if_neg hc] at hk
        rw [hmin]
        cases k with
        | zero =>
          simpa using lt_of_not_le hc
        | succ k0 =>
          have hk0 : k0 < (y :: r).length := by simpa using hkl
          have := ih k0 hk0 (by omega)
          simpa using this

lemma abs_dist_le_iff {x y c : ℚ} (hxy : x < y) :
    |x - c| ≤ |y - c| ↔ 2 * c ≤ x + y := by
  rcases abs_cases (x - c) with ⟨h1, h2⟩ | ⟨h1, h2⟩ <;>
    rcases abs_cases (y - c) with ⟨h3, h4⟩ | ⟨h3, h4⟩ <;>
    rw [h1, h3] <;> constructor <;> intro h <;> linarith

lemma argminAbs_mono (l : List ℚ) (hs : l.Sorted (· ≤ ·)) {c1 c2 : ℚ}
    (hc : c1 ≤ c2) : argminAbs c1 l ≤ argminAbs c2 l := by
  rcases eq_or_ne l [] with rfl | hl
  · simp [argminAbs]
  by_contra hcon
  push_neg at hcon
  have ha := argminAbs_lt_length c1 l hl
  have hb := argminAbs_lt_length c2 l hl
  have hxy : l.get ⟨argminAbs c2 l, hb⟩ ≤ l.get ⟨argminAbs c1 l, ha⟩ :=
    List.Sorted.rel_get_of_lt hs hcon
  have hF1 : |l.get ⟨argminAbs c1 l, ha⟩ - c1|
      < |l.get ⟨argminAbs c2 l, hb⟩ - c1| := by
    have hspec := argminAbs_spec c1 l hl
    have hearly := argminAbs_earlier c1 l (argminAbs c2 l) hb hcon
    rw [← hspec] at hearly
    exact hearly
  have hF2 : |l.get ⟨argminAbs c2 l, hb⟩ - c2|
      ≤ |l.get ⟨argminAbs c1 l, ha⟩ - c2| := by
    have hspec := argminAbs_spec c2 l hl
    have hmem : |l.get ⟨argminAbs c1 l, ha⟩ - c2| ∈ l.map (fun z => |z - c2|) :=
      List.mem_map_of_mem _ (List.get_mem l _ _)
    have hle := listMinQ_le hmem
    rw [← hspec] at hle
    exact hle
  rcases lt_or_eq_of_le hxy with hlt | heq
  · have h2 : 2 * c2 ≤ l.get ⟨argminAbs c2 l, hb⟩ + l.get ⟨argminAbs c1 l, ha⟩ :=
      (abs_dist_le_iff hlt).mp hF2
    have h1 : ¬ (2 * c1 ≤ l.get ⟨argminAbs c2 l, hb⟩ + l.get ⟨argminAbs c1 l, ha⟩) := by
      intro hcontra
      exact absurd ((abs_dist_le_iff hlt).mpr hcontra) (not_le.mpr hF1)
    push_neg at h1
    linarith
  · rw [heq] at hF1
    exact absurd hF1 (lt_irrefl _)

lemma cumsum_length (l : List ℚ) : (cumsum l).length = l.length := by
  simp [cumsum]

lemma cumsum_get (l : List ℚ) (k : ℕ) (hk : k < (cumsum l).length) :
    (cumsum l).get ⟨k, hk⟩ = (l.take (k + 1)).sum := by
  simp only [cumsum, List.get_eq_getElem, List.getElem_map, List.getElem_range]

lemma take_sum_le_take_sum (l : List ℚ) (hnn : ∀ x ∈ l, 0 ≤ x) {i j : ℕ}
    (hij : i ≤ j) : (l.take i).sum ≤ (l.take j).sum := by
  have hdecomp : l.take j = l.take i ++ (l.take j).drop i := by
    conv_lhs => rw [← List.take_append_drop i (l.take j)]
    rw [List.take_take, min_eq_left hij]
  rw [hdecomp, List.sum_append]
  have : 0 ≤ ((l.take j).drop i).sum := by
    apply List.sum_nonneg
    intro x hx
    exact hnn x (List.mem_of_mem_take (List.mem_of_mem_drop hx))
  linarith

lemma cumsum_sorted (l : List ℚ) (hnn : ∀ x ∈ l, 0 ≤ x) :
    (cumsum l).Sorted (· ≤ ·) := by
  rw [List.Sorted, List.pairwise_iff_get]
  intro i j hij
  rw [cumsum_get, cumsum_get]
  exact take_sum_le_take_sum l hnn (by omega)

/-! #### Each branch assigns its quarter group to the folds as a partition -/

lemma fin3_eq : ∀ v : Fin 3, v = 0 ∨ v = 1 ∨ v = 2 := by decide

lemma eq_of_mem_zip_snd {α β : Type _} {l : List (α × β)}
    (hnd : (l.map Prod.snd).Nodup) {p p' : α × β}
    (hp : p ∈ l) (hp' : p' ∈ l) (he : p.2 = p'.2) : p = p' := by
  induction l with
  | nil => cases hp
  | cons a t ih =>
    rw [List.map_cons] at hnd
    have hnd' := List.nodup_cons.mp hnd
    rcases List.mem_cons.mp hp with rfl | hp2 <;> rcases List.mem_cons.mp hp' with h' | hp2'
    · rw [h']
    · exfalso
      apply hnd'.1
      rw [he]
      exact List.mem_map_of_mem Prod.snd hp2'
    · exfalso
      apply hnd'.1
      rw [h'] at he
      rw [← he]
      exact List.mem_map_of_mem Prod.snd hp2
    · exact ih hnd'.2 hp2 hp2'

lemma assignSmall_union (js : List (Fin 3)) (g : List ℕ)
    (hlen : js.length = g.length) :
    splitsUnion (assignSmall js g) = g.toFinset := by
  have hsnd : (js.zip g).map Prod.snd = g := List.map_snd_zip js g (le_of_eq hlen.symm)
  ext x
  simp only [splitsUnion, assignSmall, Finset.mem_union, List.mem_toFinset,
    List.mem_map, List.mem_filter]
  constructor
  · rintro ((⟨p, ⟨hp, _⟩, rfl⟩ | ⟨p, ⟨hp, _⟩, rfl⟩) | ⟨p, ⟨hp, _⟩, rfl⟩) <;>
      · rw [← hsnd]
        exact List.mem_map_of_mem Prod.snd hp
  · intro hx
    rw [← hsnd] at hx
    rcases List.mem_map.mp hx with ⟨p, hp, rfl⟩
    rcases fin3_eq p.1 with h | h | h
    · exact Or.inl (Or.inl ⟨p, ⟨hp, by simp [h]⟩, rfl⟩)
    · exact Or.inl (Or.inr ⟨p, ⟨hp, by simp [h]⟩, rfl⟩)
    · exact Or.inr ⟨p, ⟨hp, by simp [h]⟩, rfl⟩

lemma assignSmall_parts_disj (js : List (Fin 3)) (g : List ℕ)
    (hlen : js.length = g.length) (hgnd : g.Nodup) (f f' : Fin 3) (hff : f ≠ f') :
    Disjoint ((((js.zip g).filter (fun p => p.1 = f)).map Prod.snd).toFinset)
      ((((js.zip g).filter (fun p => p.1 = f')).map Prod.snd).toFinset) := by
  have hsnd : (js.zip g).map Prod.snd = g := List.map_snd_zip js g (le_of_eq hlen.symm)
  rw [List.disjoint_toFinset_iff_disjoint]
  intro x hx hx'
  rcases List.mem_map.mp hx with ⟨p, hp, hpx⟩
  rcases List.mem_map.mp hx' with ⟨p', hp', hpx'⟩
  have hpf := List.mem_filter.mp hp
  have hpf' := List.mem_filter.mp hp'
  have hpp : p = p' := by
    apply eq_of_mem_zip_snd (by rw [hsnd]; exact hgnd) hpf.1 hpf'.1
    rw [hpx, hpx']
  apply hff
  have h1 : p.1 = f := by simpa using hpf.2
  have h2 : p'.1 = f' := by simpa using hpf'.2
  rw [← h1, ← h2, hpp]

lemma assignSmall_disjoint (js : List (Fin 3)) (g : List ℕ)
    (hlen : js.length = g.length) (hgnd : g.Nodup) :
    SplitsDisjoint (assignSmall js g) :=
  ⟨assignSmall_parts_disj js g hlen hgnd 0 1 (by decide),
   assignSmall_parts_disj js g hlen hgnd 0 2 (by decide),
   assignSmall_parts_disj js g hlen hgnd 1 2 (by decide)⟩

lemma assignThree_union (g : List ℕ) (hlen : g.length = 3) :
    splitsUnion (assignThree g) = g.toFinset := by
  rcases g with _ | ⟨x, _ | ⟨y, _ | ⟨z, _ | w⟩⟩⟩ <;> simp at hlen
  ext i
  simp [splitsUnion, assignThree, optFinset]

lemma assignThree_disjoint (g : List ℕ) (hlen : g.length = 3) (hgnd : g.Nodup) :
    SplitsDisjoint (assignThree g) := by
  rcases g with _ | ⟨x, _ | ⟨y, _ | ⟨z, _ | w⟩⟩⟩ <;> simp at hlen
  simp only [List.nodup_cons, List.mem_cons, List.mem_singleton,
    List.not_mem_nil, or_false, List.nodup_nil] at hgnd
  push_neg at hgnd
  have hd : assignThree [x, y, z] = ⟨{x}, {y}, {z}⟩ := rfl
  rw [SplitsDisjoint, hd]
  refine ⟨?_, ?_, ?_⟩ <;> rw [Finset.disjoint_singleton]
  · exact hgnd.1.1
  · exact hgnd.1.2
  · exact hgnd.2.1

lemma getD_nonneg {weights : List ℚ} (hwnn : ∀ x ∈ weights, 0 ≤ x) (k : ℕ) :
    0 ≤ weights.getD k 0 := by
  rcases Nat.lt_or_ge k weights.length with h | h
  · rw [List.getD_eq_getElem?_getD, List.getElem?_eq_getElem h]
    exact hwnn _ (List.getElem_mem h)
  · rw [List.getD_eq_default _ _ h]

lemma assignBig_cuts_le (weights : List ℚ) (g : List ℕ)
    (hwnn : ∀ x ∈ weights, 0 ≤ x) :
    argminAbs (1/3) (cumsum ((g.map (fun k => weights.getD k 0)).map
        (fun x => x / (g.map (fun k => weights.getD k 0)).sum)))
      ≤ argminAbs (2/3) (cumsum ((g.map (fun k => weights.getD k 0)).map
        (fun x => x / (g.map (fun k => weights.getD k 0)).sum))) := by
  apply argminAbs_mono
  · apply cumsum_sorted
    intro x hx
    rcases List.mem_map.mp hx with ⟨v, hv, rfl⟩
    rcases List.mem_map.mp hv with ⟨k, _, rfl⟩
    apply div_nonneg (getD_nonneg hwnn k)
    apply List.sum_nonneg
    intro y hy
    rcases List.mem_map.mp hy with ⟨k2, _, rfl⟩
    exact getD_nonneg hwnn k2
  · norm_num

lemma assignBig_decomp (g : List ℕ) {a b : ℕ} (hab : a ≤ b) :
    g = g.take (a + 1) ++ ((g.drop (a + 1)).take (b - a) ++ g.drop (b + 1)) := by
  have h3 : (g.drop (a + 1)).drop (b - a) = g.drop (b + 1) := by
    rw [List.drop_drop]
    congr 1
    omega
  conv_lhs => rw [← List.take_append_drop (a + 1) g]
  congr 1
  rw [← h3, List.take_append_drop]

lemma assignBig_union (weights : List ℚ) (g : List ℕ)
    (hwnn : ∀ x ∈ weights, 0 ≤ x) :
    splitsUnion (assignBig weights g) = g.toFinset := by
  have hab := assignBig_cuts_le weights g hwnn
  rw [splitsUnion, assignBig]
  simp only
  rw [← List.toFinset_append, ← List.toFinset_append]
  congr 1
  rw [List.append_assoc]
  exact (assignBig_decomp g hab).symm

lemma assignBig_disjoint (weights : List ℚ) (g : List ℕ)
    (hwnn : ∀ x ∈ weights, 0 ≤ x) (hgnd : g.Nodup) :
    SplitsDisjoint (assignBig weights g) := by
  have hab := assignBig_cuts_le weights g hwnn
  have hdec := assignBig_decomp g hab
  rw [hdec] at hgnd
  rw [List.nodup_append] at hgnd
  obtain ⟨h1, h2, h12⟩ := hgnd
  rw [List.nodup_append] at h2
  obtain ⟨hmid, hlast, hml⟩ := h2
  rw [List.disjoint_append_right] at h12
  refine ⟨?_, ?_, ?_⟩ <;> rw [assignBig] <;> simp only <;>
    rw [List.disjoint_toFinset_iff_disjoint]
  · exact h12.1
  · exact h12.2
  · exact hml

lemma quarterGroup_nodup (lcs : List LC) (q : ℤ) : (quarterGroup lcs q).Nodup :=
  (List.nodup_range _).filter _

lemma mem_quarterGroup (lcs : List LC) (q : ℤ) (i : ℕ) :
    i ∈ quarterGroup lcs q ↔
      i < lcs.length ∧ (lcs.get? i).map LC.quarter = some q := by
  simp [quarterGroup, List.mem_filter, List.mem_range]

lemma quarterGroups_disjoint (lcs : List LC) {q q' : ℤ} (hqq : q ≠ q') :
    Disjoint (quarterGroup lcs q).toFinset (quarterGroup lcs q').toFinset := by
  rw [List.disjoint_toFinset_iff_disjoint]
  intro i hi hi'
  have h1 := (mem_quarterGroup lcs q i).mp hi
  have h2 := (mem_quarterGroup lcs q' i).mp hi'
  apply hqq
  have := h1.2.symm.trans h2.2
  simpa using this

lemma quarterContrib_props (lcs : List LC) (orc : Oracle) (q : ℤ)
    (hsh : ∀ (q0 : ℤ) (l : List ℕ), List.Perm (orc.shuffle q0 l) l)
    (hch : ∀ (q0 : ℤ) (k : ℕ), (orc.choose q0 k).length = k)
    (hwnn : ∀ x ∈ globalWeights lcs, 0 ≤ x) :
    splitsUnion (quarterContrib lcs orc q) = (quarterGroup lcs q).toFinset ∧
    SplitsDisjoint (quarterContrib lcs orc q) := by
  have hgnd := quarterGroup_nodup lcs q
  rw [quarterContrib]
  by_cases h1 : (quarterGroup lcs q).length < 3
  · rw [if_pos h1]
    have hlen : (orc.choose q (quarterGroup lcs q).length).length
        = (quarterGroup lcs q).length := hch q _
    exact ⟨assignSmall_union _ _ hlen, assignSmall_disjoint _ _ hlen hgnd⟩
  · rw [if_neg h1]
    have hperm := hsh q (quarterGroup lcs q)
    have hnd' : (orc.shuffle q (quarterGroup lcs q)).Nodup :=
      (List.Perm.nodup_iff hperm).mpr hgnd
    have htof : (orc.shuffle q (quarterGroup lcs q)).toFinset
        = (quarterGroup lcs q).toFinset :=
      List.toFinset_eq_of_perm _ _ hperm
    by_cases h2 : (quarterGroup lcs q).length = 3
    · rw [if_pos h2]
      have hlen3 : (orc.shuffle q (quarterGroup lcs q)).length = 3 := by
        rw [List.Perm.length_eq hperm, h2]
      rw [assignThree_union _ hlen3, htof]
      exact ⟨rfl, assignThree_disjoint _ hlen3 hnd'⟩
    · rw [if_neg h2]
      rw [assignBig_union _ _ hwnn, htof]
      exact ⟨rfl, assignBig_disjoint _ _ hwnn hnd'⟩

/-! #### Assembling the whole partition -/

/-- The indices covered by a list of quarter groups. -/
def groupsUnion (lcs : List LC) (QS : List ℤ) : Finset ℕ :=
  QS.foldr (fun q acc => (quarterGroup lcs q).toFinset ∪ acc) ∅

lemma groupsUnion_cons (lcs : List LC) (q : ℤ) (QS : List ℤ) :
    groupsUnion lcs (q :: QS) = (quarterGroup lcs q).toFinset ∪ groupsUnion lcs QS :=
  rfl

lemma splitsUnion_unionSplits (x y : Splits) :
    splitsUnion (unionSplits x y) = splitsUnion x ∪ splitsUnion y := by
  ext i
  simp [splitsUnion, unionSplits]
  tauto

lemma unionSplits_disjoint {x y : Splits}
    (hx : SplitsDisjoint x) (hy : SplitsDisjoint y)
    (hsep : Disjoint (splitsUnion x) (splitsUnion y)) :
    SplitsDisjoint (unionSplits x y) := by
  have hsub : ∀ z : Splits, z.s0 ⊆ splitsUnion z ∧ z.s1 ⊆ splitsUnion z ∧
      z.s2 ⊆ splitsUnion z := by
    intro z
    refine ⟨?_, ?_, ?_⟩ <;> intro i hi <;> simp [splitsUnion] <;> tauto
  obtain ⟨hx0, hx1, hx2⟩ := hsub x
  obtain ⟨hy0, hy1, hy2⟩ := hsub y
  refine ⟨?_, ?_, ?_⟩ <;> rw [unionSplits] <;> simp only <;>
    rw [Finset.disjoint_union_left] <;> constructor <;>
    rw [Finset.disjoint_union_right] <;> constructor
  · exact hx.1
  · exact Disjoint.mono hx0 hy1 hsep
  · exact Disjoint.mono hy0 hx1 hsep.symm
  · exact hy.1
  · exact hx.2.1
  · exact Disjoint.mono hx0 hy2 hsep
  · exact Disjoint.mono hy0 hx2 hsep.symm
  · exact hy.2.1
  · exact hx.2.2
  · exact Disjoint.mono hx1 hy2 hsep
  · exact Disjoint.mono hy1 hx2 hsep.symm
  · exact hy.2.2

lemma partition_fold (lcs : List LC) (orc : Oracle)
    (hsh : ∀ (q0 : ℤ) (l : List ℕ), List.Perm (orc.shuffle q0 l) l)
    (hch : ∀ (q0 : ℤ) (k : ℕ), (orc.choose q0 k).length = k)
    (hwnn : ∀ x ∈ globalWeights lcs, 0 ≤ x) :
    ∀ (QS : List ℤ) (acc : Splits), QS.Nodup → SplitsDisjoint acc →
      (∀ q ∈ QS, Disjoint (splitsUnion acc) (quarterGroup lcs q).toFinset) →
      SplitsDisjoint (QS.foldl (fun a q => unionSplits a (quarterContrib lcs orc q)) acc) ∧
      splitsUnion (QS.foldl (fun a q => unionSplits a (quarterContrib lcs orc q)) acc)
        = splitsUnion acc ∪ groupsUnion lcs QS := by
  intro QS
  induction QS with
  | nil =>
    intro acc _ hdisj _
    simpa [groupsUnion] using hdisj
  | cons q rest ih =>
    intro acc hnd hdisj hsep
    obtain ⟨hcu, hcd⟩ := quarterContrib_props lcs orc q hsh hch hwnn
    have hnd' := List.nodup_cons.mp hnd
    have hsepq : Disjoint (splitsUnion acc) (splitsUnion (quarterContrib lcs orc q)) := by
      rw [hcu]
      exact hsep q (List.mem_cons_self _ _)
    have hstep := unionSplits_disjoint hdisj hcd hsepq
    have hsep' : ∀ q' ∈ rest,
        Disjoint (splitsUnion (unionSplits acc (quarterContrib lcs orc q)))
          (quarterGroup lcs q').toFinset := by
      intro q' hq'
      rw [splitsUnion_unionSplits, Finset.disjoint_union_left]
      constructor
      · exact hsep q' (List.mem_cons_of_mem _ hq')
      · rw [hcu]
        apply quarterGroups_disjoint
        intro hqq
        rw [hqq] at hnd'
        exact hnd'.1 hq'
    rw [List.foldl_cons]
    obtain ⟨hd2, hu2⟩ := ih (unionSplits acc (quarterContrib lcs orc q)) hnd'.2 hstep hsep'
    refine ⟨hd2, ?_⟩
    rw [hu2, splitsUnion_unionSplits, hcu, groupsUnion_cons, Finset.union_assoc]

lemma groupsUnion_quarters (lcs : List LC) :
    groupsUnion lcs (quartersOf lcs) = Finset.range lcs.length := by
  have hmem : ∀ (QS : List ℤ) (i : ℕ),
      i ∈ groupsUnion lcs QS ↔ ∃ q ∈ QS, i ∈ quarterGroup lcs q := by
    intro QS
    induction QS with
    | nil => simp [groupsUnion]
    | cons q rest ihq =>
      intro i
      rw [groupsUnion, List.foldr_cons]
      simp only [Finset.mem_union, List.mem_toFinset]
      rw [show (List.foldr (fun q acc => (quarterGroup lcs q).toFinset ∪ acc) ∅ rest)
          = groupsUnion lcs rest from rfl]
      rw [ihq i]
      simp
  ext i
  rw [hmem, Finset.mem_range]
  constructor
  · rintro ⟨q, _, hq⟩
    exact ((mem_quarterGroup lcs q i).mp hq).1
  · intro hi
    refine ⟨(lcs.get ⟨i, hi⟩).quarter, ?_, ?_⟩
    · rw [quartersOf, List.mem_dedup]
      exact List.mem_map_of_mem LC.quarter (List.get_mem lcs i hi)
    · rw [mem_quarterGroup]
      refine ⟨hi, ?_⟩
      rw [List.get?_eq_get hi]
      rfl

lemma globalWeights_nonneg (lcs : List LC) (hfp : ∀ lc ∈ lcs, 0 ≤ lc.footprint) :
    ∀ x ∈ globalWeights lcs, 0 ≤ x := by
  intro x hx
  rcases List.mem_map.mp hx with ⟨lc, hlc, rfl⟩
  apply div_nonneg (hfp lc hlc)
  apply List.sum_nonneg
  intro y hy
  rcases List.mem_map.mp hy with ⟨lc2, hlc2, rfl⟩
  exact hfp lc2 hlc2

/-- C4: for any segment list, the three folds computed by `__init__` are
pairwise disjoint and together cover exactly the eligible segments — the
indices of the segments longer than twice the half width.  The hypotheses
state what numpy guarantees for the random draws (`shuffle` permutes,
`choice(3, size=k, replace=False)` returns `k` fold ids) and that segment
footprints are nonnegative (a footprint is a time-span length). -/
theorem init_splits_partition (lcs0 : List LC) (hw : ℕ) (orc : Oracle)
    (hsh : ∀ (q0 : ℤ) (l : List ℕ), List.Perm (orc.shuffle q0 l) l)
    (hch : ∀ (q0 : ℤ) (k : ℕ), (orc.choose q0 k).length = k)
    (hfp : ∀ lc ∈ lcs0, 0 ≤ lc.footprint) :
    SplitsDisjoint (modelSplits lcs0 hw orc) ∧
    splitsUnion (modelSplits lcs0 hw orc)
      = Finset.range (lcs0.filter (fun lc => 2 * hw < lc.nsamp)).length := by
  have hfp2 : ∀ lc ∈ lcs0.filter (fun lc => 2 * hw < lc.nsamp), 0 ≤ lc.footprint :=
    fun lc hlc => hfp lc (List.mem_of_mem_filter hlc)
  have h := partition_fold (lcs0.filter (fun lc => 2 * hw < lc.nsamp)) orc hsh hch
    (globalWeights_nonneg _ hfp2) (quartersOf (lcs0.filter (fun lc => 2 * hw < lc.nsamp)))
    ⟨∅, ∅, ∅⟩ (List.nodup_dedup _) (by refine ⟨?_, ?_, ?_⟩ <;> simp)
    (by intro q _; simp [splitsUnion])
  rw [modelSplits]
  refine ⟨h.1, ?_⟩
  rw [h.2, groupsUnion_quarters]
  ext i
  simp [splitsUnion]

/-- A deterministic stand-in for the numpy random draws: `choice` returns
`k` copies of fold 0 and `shuffle` leaves the list unchanged. -/
def orcId : Oracle :=
  ⟨fun _ k => List.replicate k 0, fun _ l => l⟩

theorem init_splits_partition_witness :
    (∀ (q0 : ℤ) (l : List ℕ), List.Perm (orcId.shuffle q0 l) l) ∧
    (∀ (q0 : ℤ) (k : ℕ), (orcId.choose q0 k).length = k) ∧
    (∀ lc ∈ [LC.mk 3 0 1], 0 ≤ lc.footprint) ∧
    (SplitsDisjoint (modelSplits [LC.mk 3 0 1] 1 orcId) ∧
     splitsUnion (modelSplits [LC.mk 3 0 1] 1 orcId)
       = Finset.range (([LC.mk 3 0 1].filter (fun lc => 2 * 1 < lc.nsamp)).length)) :=
  ⟨fun _ l => List.Perm.refl l,
   fun _ k => by simp [orcId],
   by intro lc hlc; simp only [List.mem_singleton] at hlc; subst hlc; norm_num,
   init_splits_partition [LC.mk 3 0 1] 1 orcId
     (fun _ l => List.Perm.refl l)
     (fun _ k => by simp [orcId])
     (by intro lc hlc; simp only [List.mem_singleton] at hlc; subst hlc; norm_num)⟩

/-! #### Footprint balance of the big-group branch -/

/-- The footprint of the segment at index `i` (0 when out of range). -/
def fpAt (lcs : List LC) (i : ℕ) : ℚ :=
  (lcs[i]?.map LC.footprint).getD 0

/-- The total footprint of a set of segment indices. -/
def footprintSum (lcs : List LC) (s : Finset ℕ) : ℚ :=
  s.sum (fpAt lcs)

lemma sum_map_div (l : List ℚ) (d : ℚ) :
    (l.map (fun x => x / d)).sum = l.sum / d := by
  induction l with
  | nil => simp
  | cons x t ih => rw [List.map_cons, List.sum_cons, List.sum_cons, ih, add_div]

lemma exists_cumsum_close (l : List ℚ) (M c : ℚ) (hne : l ≠ [])
    (hub : ∀ x ∈ l, x ≤ M) (hc0 : 0 < c) (hcs : c ≤ l.sum) :
    ∃ z ∈ cumsum l, |z - c| ≤ M := by
  have hex : ∃ k, c ≤ (l.take (k + 1)).sum := by
    refine ⟨l.length - 1, ?_⟩
    have hlen : 0 < l.length := List.length_pos.mpr hne
    have : l.length - 1 + 1 = l.length := by omega
    rw [this, List.take_length]
    exact hcs
  have hlen : 0 < l.length := List.length_pos.mpr hne
  obtain ⟨k, hk, hmin, hkl⟩ : ∃ k, c ≤ (l.take (k + 1)).sum ∧
      (∀ m, m < k → (l.take (m + 1)).sum < c) ∧ k < l.length := by
    refine ⟨Nat.find hex, Nat.find_spec hex,
      fun m hm => lt_of_not_le (Nat.find_min hex hm), ?_⟩
    have hPtop : c ≤ (l.take (l.length - 1 + 1)).sum := by
      have h1 : l.length - 1 + 1 = l.length := by omega
      rw [h1, List.take_length]
      exact hcs
    have := @Nat.find_le _ _ _ hex hPtop
    omega
  have hkc : (cumsum l).length = l.length := cumsum_length l
  refine ⟨(cumsum l).get ⟨k, by omega⟩, List.get_mem _ _ _, ?_⟩
  rw [cumsum_get]
  have hprev : (l.take k).sum < c := by
    cases k with
    | zero => simpa using hc0
    | succ k0 => exact hmin k0 (by omega)
  have hstep : l.take (k + 1) = l.take k ++ [l.get ⟨k, hkl⟩] := by
    rw [List.take_succ]
    simp [List.getElem?_eq_getElem hkl]
  have hsum : (l.take (k + 1)).sum = (l.take k).sum + l.get ⟨k, hkl⟩ := by
    rw [hstep, List.sum_append, List.sum_singleton]
  have hbd : l.get ⟨k, hkl⟩ ≤ M := hub _ (List.get_mem l k hkl)
  rw [abs_of_nonneg (by linarith)]
  rw [hsum] at hk ⊢
  linarith

lemma argmin_cumsum_close (l : List ℚ) (M c : ℚ) (hne : l ≠ [])
    (hub : ∀ x ∈ l, x ≤ M) (hc0 : 0 < c) (hcs : c ≤ l.sum) :
    |(l.take (argminAbs c (cumsum l) + 1)).sum - c| ≤ M := by
  have hcne : cumsum l ≠ [] := by
    intro h0
    apply hne
    have := congrArg List.length h0
    rw [cumsum_length] at this
    exact List.length_eq_zero.mp this
  obtain ⟨z, hzmem, hzle⟩ := exists_cumsum_close l M c hne hub hc0 hcs
  have h1 : listMinQ ((cumsum l).map (fun t => |t - c|)) ≤ |z - c| :=
    listMinQ_le (List.mem_map_of_mem _ hzmem)
  have hspec := argminAbs_spec c (cumsum l) hcne
  rw [← hspec, cumsum_get] at h1
  exact le_trans h1 hzle

/-- C9 (amended): for a quarter group of more than 3 segments with positive
footprints, each of the three fold shares from the big-group branch lies
within one largest-segment footprint `W` of the ideal third of the group
total (within `2W` for the middle fold); the folds need not pairwise differ
by less than `W`.  The shuffle hypothesis states that numpy's shuffle
permutes the group. -/
theorem quarter_footprint_balance (lcs : List LC) (orc : Oracle) (q : ℤ)
    (hsh : ∀ (q0 : ℤ) (l : List ℕ), List.Perm (orc.shuffle q0 l) l)
    (hfp : ∀ lc ∈ lcs, 0 < lc.footprint)
    (hbig : 3 < (quarterGroup lcs q).length) :
    |footprintSum lcs (quarterContrib lcs orc q).s0
        - footprintSum lcs (quarterGroup lcs q).toFinset / 3|
      ≤ listMaxQ ((quarterGroup lcs q).map (fpAt lcs)) ∧
    |footprintSum lcs (quarterContrib lcs orc q).s1
        - footprintSum lcs (quarterGroup lcs q).toFinset / 3|
      ≤ 2 * listMaxQ ((quarterGroup lcs q).map (fpAt lcs)) ∧
    |footprintSum lcs (quarterContrib lcs orc q).s2
        - footprintSum lcs (quarterGroup lcs q).toFinset / 3|
      ≤ listMaxQ ((quarterGroup lcs q).map (fpAt lcs)) := by
  have hperm : List.Perm (orc.shuffle q (quarterGroup lcs q)) (quarterGroup lcs q) :=
    hsh q _
  set g := orc.shuffle q (quarterGroup lcs q) with hgdef
  have hgnd : g.Nodup := hperm.nodup_iff.mpr (quarterGroup_nodup lcs q)
  have hglen : g.length = (quarterGroup lcs q).length := hperm.length_eq
  have hcontrib : quarterContrib lcs orc q = assignBig (globalWeights lcs) g := by
    rw [quarterContrib, if_neg (by omega), if_neg (by omega)]
  set G := (lcs.map LC.footprint).sum with hGdef
  have hlcs_ne : lcs ≠ [] := by
    intro h0
    rw [h0] at hbig
    simp [quarterGroup] at hbig
  have hG : 0 < G := by
    apply List.sum_pos
    · intro x hx
      rcases List.mem_map.mp hx with ⟨lc, hlc, rfl⟩
      exact hfp lc hlc
    · simpa using hlcs_ne
  have hG0 : G ≠ 0 := ne_of_gt hG
  have hmemg : ∀ i ∈ g, i < lcs.length := by
    intro i hi
    exact ((mem_quarterGroup lcs q i).mp (hperm.mem_iff.mp hi)).1
  have hfpidx : ∀ i, (hil : i < lcs.length) → fpAt lcs i = (lcs.get ⟨i, hil⟩).footprint := by
    intro i hil
    rw [fpAt, List.getElem?_eq_getElem hil]
    rfl
  have hfpg : ∀ i ∈ g, 0 < fpAt lcs i := by
    intro i hi
    have hil := hmemg i hi
    rw [hfpidx i hil]
    exact hfp _ (List.get_mem lcs i hil)
  set fpl := g.map (fpAt lcs) with hfpldef
  have hfpl_ne : fpl ≠ [] := by
    intro h0
    have h1 : fpl.length = 0 := by rw [h0]; rfl
    rw [hfpldef, List.length_map, hglen] at h1
    omega
  have hfpl_pos : ∀ x ∈ fpl, 0 < x := by
    intro x hx
    rcases List.mem_map.mp hx with ⟨i, hi, rfl⟩
    exact hfpg i hi
  set F := fpl.sum with hFdef
  have hFpos : 0 < F := List.sum_pos fpl hfpl_pos hfpl_ne
  have hF0 : F ≠ 0 := ne_of_gt hFpos
  set W := listMaxQ ((quarterGroup lcs q).map (fpAt lcs)) with hWdef
  have hub : ∀ x ∈ fpl, x ≤ W := by
    intro x hx
    exact le_listMaxQ ((List.Perm.map (fpAt lcs) hperm).mem_iff.mp hx)
  have hwmap : g.map (fun k => (globalWeights lcs).getD k 0)
      = fpl.map (fun x => x / G) := by
    rw [hfpldef, List.map_map]
    apply List.map_congr_left
    intro i hi
    have hil := hmemg i hi
    have h1 : (globalWeights lcs).getD i 0 = (lcs.get ⟨i, hil⟩).footprint / G := by
      rw [globalWeights, List.getD_eq_getElem?_getD, List.getElem?_map,
        List.getElem?_eq_getElem hil]
      rfl
    simp only [Function.comp_apply, h1, hfpidx i hil]
  set w2 := fpl.map (fun x => x / F) with hw2def
  have hw2eq : (g.map (fun k => (globalWeights lcs).getD k 0)).map
      (fun x => x / (g.map (fun k => (globalWeights lcs).getD k 0)).sum) = w2 := by
    rw [hwmap, sum_map_div, ← hFdef, List.map_map, hw2def]
    apply List.map_congr_left
    intro x hx
    simp only [Function.comp_apply]
    field_simp
  have hw2nn : ∀ x ∈ w2, 0 ≤ x := by
    intro x hx
    rcases List.mem_map.mp hx with ⟨y, hy, rfl⟩
    exact div_nonneg (le_of_lt (hfpl_pos y hy)) (le_of_lt hFpos)
  have hw2ub : ∀ x ∈ w2, x ≤ W / F := by
    intro x hx
    rcases List.mem_map.mp hx with ⟨y, hy, rfl⟩
    exact div_le_div_of_nonneg_right (hub y hy) hFpos.le
  have hw2sum : w2.sum = 1 := by
    rw [hw2def, sum_map_div, ← hFdef, div_self hF0]
  have hw2ne : w2 ≠ [] := by
    intro h0
    apply hfpl_ne
    rw [hw2def] at h0
    exact List.map_eq_nil_iff.mp h0
  set a := argminAbs (1/3) (cumsum w2) with hadef
  set b := argminAbs (2/3) (cumsum w2) with hbdef
  have hab : a ≤ b := by
    rw [hadef, hbdef]
    exact argminAbs_mono (cumsum w2) (cumsum_sorted w2 hw2nn) (by norm_num)
  have hcontrib2 : quarterContrib lcs orc q =
      ⟨(g.take (a + 1)).toFinset, ((g.drop (a + 1)).take (b - a)).toFinset,
       (g.drop (b + 1)).toFinset⟩ := by
    rw [hcontrib]
    simp only [assignBig]
    rw [hw2eq]
  have hA := argmin_cumsum_close w2 (W / F) (1/3) hw2ne hw2ub (by norm_num)
    (by rw [hw2sum]; norm_num)
  have hB := argmin_cumsum_close w2 (W / F) (2/3) hw2ne hw2ub (by norm_num)
    (by rw [hw2sum]; norm_num)
  rw [← hadef] at hA
  rw [← hbdef] at hB
  have htake : ∀ k : ℕ, (w2.take k).sum = (fpl.take k).sum / F := by
    intro k
    rw [hw2def, ← List.map_take, sum_map_div]
  rw [htake] at hA hB
  have habs : ∀ x c : ℚ, |x / F - c| ≤ W / F → |x - F * c| ≤ W := by
    intro x c h
    have he : x / F - c = (x - F * c) / F := by field_simp
    rw [he, abs_div, abs_of_pos hFpos] at h
    have h2 := mul_le_mul_of_nonneg_right h hFpos.le
    rwa [div_mul_cancel₀ _ hF0, div_mul_cancel₀ _ hF0] at h2
  have hA2 : |(fpl.take (a + 1)).sum - F * (1/3)| ≤ W := habs _ _ hA
  have hB2 : |(fpl.take (b + 1)).sum - F * (2/3)| ≤ W := habs _ _ hB
  have hsplitb : (fpl.take (b + 1)).sum + (fpl.drop (b + 1)).sum = F := by
    rw [← List.sum_append, List.take_append_drop, hFdef]
  have hsplita : (fpl.take (a + 1)).sum + ((fpl.drop (a + 1)).take (b - a)).sum
      = (fpl.take (b + 1)).sum := by
    rw [← List.sum_append, ← List.take_add]
    congr 2
    omega
  have hFgroup : footprintSum lcs (quarterGroup lcs q).toFinset = F := by
    rw [footprintSum, List.sum_toFinset _ (quarterGroup_nodup lcs q)]
    exact (List.Perm.sum_eq (List.Perm.map (fpAt lcs) hperm)).symm
  have hnd0 : (g.take (a + 1)).Nodup := List.Nodup.sublist (List.take_sublist _ _) hgnd
  have hnd1 : ((g.drop (a + 1)).take (b - a)).Nodup :=
    List.Nodup.sublist ((List.take_sublist _ _).trans (List.drop_sublist _ _)) hgnd
  have hnd2 : (g.drop (b + 1)).Nodup := List.Nodup.sublist (List.drop_sublist _ _) hgnd
  have hS0 : footprintSum lcs (g.take (a + 1)).toFinset = (fpl.take (a + 1)).sum := by
    rw [footprintSum, List.sum_toFinset _ hnd0, List.map_take]
  have hS1 : footprintSum lcs ((g.drop (a + 1)).take (b - a)).toFinset
      = ((fpl.drop (a + 1)).take (b - a)).sum := by
    rw [footprintSum, List.sum_toFinset _ hnd1, List.map_take, List.map_drop]
  have hS2 : footprintSum lcs (g.drop (b + 1)).toFinset = (fpl.drop (b + 1)).sum := by
    rw [footprintSum, List.sum_toFinset _ hnd2, List.map_drop]
  rw [hcontrib2, hFgroup]
  refine ⟨?_, ?_, ?_⟩
  · show |footprintSum lcs (g.take (a + 1)).toFinset - F / 3| ≤ W
    rw [hS0]
    have he : (fpl.take (a + 1)).sum - F / 3
        = (fpl.take (a + 1)).sum - F * (1/3) := by ring
    rw [he]
    exact hA2
  · show |footprintSum lcs ((g.drop (a + 1)).take (b - a)).toFinset - F / 3| ≤ 2 * W
    rw [hS1]
    have he : ((fpl.drop (a + 1)).take (b - a)).sum - F / 3
        = ((fpl.take (b + 1)).sum - F * (2/3)) - ((fpl.take (a + 1)).sum - F * (1/3)) := by
      have h1 : ((fpl.drop (a + 1)).take (b - a)).sum
          = (fpl.take (b + 1)).sum - (fpl.take (a + 1)).sum := by linarith
      rw [h1]
      ring
    rw [he]
    calc |((fpl.take (b + 1)).sum - F * (2/3)) - ((fpl.take (a + 1)).sum - F * (1/3))|
        ≤ |(fpl.take (b + 1)).sum - F * (2/3)| + |(fpl.take (a + 1)).sum - F * (1/3)| :=
          abs_sub _ _
      _ ≤ W + W := add_le_add hB2 hA2
      _ = 2 * W := by ring
  · show |footprintSum lcs (g.drop (b + 1)).toFinset - F / 3| ≤ W
    rw [hS2]
    have he : (fpl.drop (b + 1)).sum - F / 3
        = -((fpl.take (b + 1)).sum - F * (2/3)) := by linarith
    rw [he, abs_neg]
    exact hB2

/-- Five segments in one quarter with footprints 61, 72, 34, 72, 61. -/
def lcs9 : List LC :=
  [⟨201, 0, 61⟩, ⟨201, 0, 72⟩, ⟨201, 0, 34⟩, ⟨201, 0, 72⟩, ⟨201, 0, 61⟩]

/-- C9 counterexample: a quarter group of five segments with footprints
61, 72, 34, 72, 61 is cut by the footprint-weighted branch into folds with
totals 133, 34 and 133; folds 0 and 1 differ by 99, which is not below the
largest single footprint 72, refuting the claimed pairwise bound. -/
theorem footprint_balance_counterexample :
    3 < (quarterGroup lcs9 0).length ∧
    ¬ (|footprintSum lcs9 (quarterContrib lcs9 orcId 0).s0
          - footprintSum lcs9 (quarterContrib lcs9 orcId 0).s1|
        < listMaxQ ((quarterGroup lcs9 0).map (fpAt lcs9))) := by
  have hg : quarterGroup lcs9 0 = [0, 1, 2, 3, 4] := rfl
  have hw : [0, 1, 2, 3, 4].map (fun k => (globalWeights lcs9).getD k 0)
      = [61/300, 72/300, 34/300, 72/300, 61/300] := by
    norm_num [globalWeights, lcs9]
  have hsum : ([61/300, 72/300, 34/300, 72/300, 61/300] : List ℚ).sum = 1 := by
    norm_num
  have hcs : cumsum ([61/300, 72/300, 34/300, 72/300, 61/300] : List ℚ)
      = [61/300, 133/300, 167/300, 239/300, 1] := by
    norm_num [cumsum, List.range_succ]
  have ha : argminAbs (1/3) ([61/300, 133/300, 167/300, 239/300, 1] : List ℚ) = 1 := by
    norm_num [argminAbs, listMinQ, abs_of_nonneg, abs_of_nonpos, min_def]
  have hb : argminAbs (2/3) ([61/300, 133/300, 167/300, 239/300, 1] : List ℚ) = 2 := by
    norm_num [argminAbs, listMinQ, abs_of_nonneg, abs_of_nonpos, min_def]
  have h1 : quarterContrib lcs9 orcId 0
      = ⟨({0, 1} : Finset ℕ), ({2} : Finset ℕ), ({3, 4} : Finset ℕ)⟩ := by
    rw [quarterContrib, hg]
    rw [if_neg (by norm_num), if_neg (by norm_num)]
    have hshuf : orcId.shuffle 0 [0, 1, 2, 3, 4] = [0, 1, 2, 3, 4] := rfl
    rw [hshuf]
    simp only [assignBig]
    rw [hw]
    simp only [hsum, div_one, List.map_id']
    rw [hcs, ha, hb]
    decide
  have hs0 : footprintSum lcs9 ({0, 1} : Finset ℕ) = 133 := by
    rw [footprintSum, Finset.sum_insert (by decide), Finset.sum_singleton]
    norm_num [fpAt, lcs9]
  have hs1 : footprintSum lcs9 ({2} : Finset ℕ) = 34 := by
    rw [footprintSum, Finset.sum_singleton]
    norm_num [fpAt, lcs9]
  have hW : listMaxQ ([0, 1, 2, 3, 4].map (fpAt lcs9)) = 72 := by
    norm_num [listMaxQ, fpAt, lcs9, max_def]
  refine ⟨by rw [hg]; norm_num, ?_⟩
  rw [h1, hg]
  show ¬ (|footprintSum lcs9 ({0, 1} : Finset ℕ) - footprintSum lcs9 ({2} : Finset ℕ)|
      < listMaxQ ([0, 1, 2, 3, 4].map (fpAt lcs9)))
  rw [hs0, hs1, hW]
  norm_num [abs_of_nonneg]

/-- Four segments in one quarter with unit footprints. -/
def lcs4 : List LC := [⟨9, 0, 1⟩, ⟨9, 0, 1⟩, ⟨9, 0, 1⟩, ⟨9, 0, 1⟩]

theorem quarter_footprint_balance_witness :
    (∀ (q0 : ℤ) (l : List ℕ), List.Perm (orcId.shuffle q0 l) l) ∧
    (∀ lc ∈ lcs4, 0 < lc.footprint) ∧
    3 < (quarterGroup lcs4 0).length ∧
    (|footprintSum lcs4 (quarterContrib lcs4 orcId 0).s0
        - footprintSum lcs4 (quarterGroup lcs4 0).toFinset / 3|
      ≤ listMaxQ ((quarterGroup lcs4 0).map (fpAt lcs4)) ∧
     |footprintSum lcs4 (quarterContrib lcs4 orcId 0).s1
        - footprintSum lcs4 (quarterGroup lcs4 0).toFinset / 3|
      ≤ 2 * listMaxQ ((quarterGroup lcs4 0).map (fpAt lcs4)) ∧
     |footprintSum lcs4 (quarterContrib lcs4 orcId 0).s2
        - footprintSum lcs4 (quarterGroup lcs4 0).toFinset / 3|
      ≤ listMaxQ ((quarterGroup lcs4 0).map (fpAt lcs4))) := by
  have hfp4 : ∀ lc ∈ lcs4, 0 < lc.footprint := by
    intro lc hlc
    simp only [lcs4, List.mem_cons, List.not_mem_nil, or_false] at hlc
    rcases hlc with rfl | rfl | rfl | rfl <;> norm_num
  have hbig4 : 3 < (quarterGroup lcs4 0).length := by decide
  exact ⟨fun _ l => List.Perm.refl l, hfp4, hbig4,
    quarter_footprint_balance lcs4 orcId 0 (fun _ l => List.Perm.refl l) hfp4 hbig4⟩

end Peerless
